import Mathlib

/-!
Verification of the confik staging-and-rollback engine.

This file shallowly embeds the Go sources of the confik CLI:
pure string manipulation (the gitignore block editor) is translated to
Lean functions over `String`/`List Char`; the filesystem-facing staging
walk and cleanup are translated to explicit state passing over a small
filesystem model (`FS`), with OS-level failures (stat errors, unreadable
copy sources, denied removals) supplied by an explicit `Oracle`.
Paths are modeled as segment lists (`List String`), already absolute
(`filepath.Abs` is the identity in the model). Glob matching
(`matchesPatternList`, an external dependency) is abstracted as a
boolean predicate on the relative path.
-/

namespace Confik

/-! ## Byte/char-level string helpers (Go `strings` package semantics) -/

/-- `chStarts pat s` is true when `pat` is a leading segment of `s`
(Go `strings.HasPrefix s pat` at the rune level). -/
def chStarts : List Char → List Char → Bool
  | [], _ => true
  | _ :: _, [] => false
  | a :: as, b :: bs => a == b && chStarts as bs

/-- `chSuffix pat s`: `pat` is a trailing segment of `s`. -/
def chSuffix (pat s : List Char) : Bool :=
  chStarts pat.reverse s.reverse

/-- `chInfix pat s`: `pat` occurs contiguously inside `s`
(Go `strings.Contains s pat`). -/
def chInfix (pat : List Char) : List Char → Bool
  | [] => pat.isEmpty
  | c :: tl => chStarts pat (c :: tl) || chInfix pat tl

def strStartsWith (s pat : String) : Bool := chStarts pat.data s.data

def strEndsWith (s pat : String) : Bool := chSuffix pat.data s.data

def strContains (s pat : String) : Bool := chInfix pat.data s.data

/-- Split on a separator char, Go `strings.Split s (String.singleton sep)`
semantics: `splitCh '\n' "" = [""]`, a trailing separator yields a final
empty field. -/
def splitChAux (sep : Char) : List Char → List Char → List String
  | [], acc => [String.mk acc.reverse]
  | c :: rest, acc =>
    if c == sep then String.mk acc.reverse :: splitChAux sep rest []
    else splitChAux sep rest (c :: acc)

def splitCh (sep : Char) (s : String) : List String :=
  splitChAux sep s.data []

/-- Go `strings.Join parts sep`. -/
def joinSep (sep : String) : List String → String
  | [] => ""
  | [x] => x
  | x :: y :: xs => x ++ sep ++ joinSep sep (y :: xs)

def splitLines (s : String) : List String := splitCh '\n' s

def joinLines (l : List String) : String := joinSep "\n" l

/-! ## Ignore-block editor (git.go: `appendGitIgnoreBlock`,
`removeGitIgnoreBlocks`) -/

def startSentinel (runID : String) : String := "# confik:start:" ++ runID

def endSentinel (runID : String) : String := "# confik:end:" ++ runID

/-- One loop iteration of `removeGitIgnoreBlocks`: state is
(skipping, kept-lines-so-far). -/
def stripStep (runID : String) (st : Bool × List String) (line : String) :
    Bool × List String :=
  if strStartsWith line "# confik:start:" &&
      (runID == "" || line == startSentinel runID) then
    (true, st.2)
  else if st.1 then
    if strStartsWith line "# confik:end:" &&
        (runID == "" || line == endSentinel runID) then
      (false, st.2)
    else
      (true, st.2)
  else
    (st.1, st.2 ++ [line])

/-- `removeGitIgnoreBlocks(content, runID)`: excise the lines of the
`runID`-tagged block (all tagged blocks when `runID = ""`), preserving a
trailing newline when the original content had one. -/
def removeGitIgnoreBlocks (content runID : String) : String :=
  if strEndsWith content "\n" &&
      !strEndsWith
        (joinLines
          (List.foldl (stripStep runID) (false, []) (splitLines content)).2)
        "\n" then
    joinLines (List.foldl (stripStep runID) (false, []) (splitLines content)).2
      ++ "\n"
  else
    joinLines (List.foldl (stripStep runID) (false, []) (splitLines content)).2

/-- The block text appended by `appendGitIgnoreBlock`: start sentinel,
one line per path, end sentinel, final newline. -/
def mkIgnoreBlock (runID : String) (paths : List String) : String :=
  joinLines (startSentinel runID :: (paths ++ [endSentinel runID])) ++ "\n"

/-- Content-level model of `appendGitIgnoreBlock`: `existing` is the
exclude file's current content (`none` when the file is unreadable, in
which case Go proceeds with empty `existing`). If the start sentinel is
already present the content is returned untouched; otherwise the block is
appended, preceded by a newline when the existing content lacks one. -/
def appendGitIgnoreBlockContent (existing : Option String) (runID : String)
    (paths : List String) : String :=
  let e := existing.getD ""
  if existing.isSome && strContains e (startSentinel runID) then
    e
  else
    let e2 := if !(e == "") && !strEndsWith e "\n" then e ++ "\n" else e
    e2 ++ mkIgnoreBlock runID paths

/-! ## Helper lemmas about the string primitives -/

theorem strData_append (s t : String) : (s ++ t).data = s.data ++ t.data := rfl

theorem chStarts_append (l r : List Char) : chStarts l (l ++ r) = true := by
  induction l with
  | nil => rfl
  | cons a as ih => simp [chStarts, ih]

theorem chInfix_of_chStarts {pat s : List Char} (h : chStarts pat s = true)
    (pre : List Char) : chInfix pat (pre ++ s) = true := by
  induction pre with
  | nil =>
    cases s with
    | nil =>
      cases pat with
      | nil => rfl
      | cons a as => simp [chStarts] at h
    | cons c tl => simp [chInfix, h]
  | cons c cs ih => simp [chInfix, ih]

theorem strStartsWith_append_self (p r : String) :
    strStartsWith (p ++ r) p = true := by
  simpa [strStartsWith, strData_append] using chStarts_append p.data r.data

theorem strEndsWith_append_nl (s : String) :
    strEndsWith (s ++ "\n") "\n" = true := by
  simp [strEndsWith, chSuffix, strData_append, chStarts]

theorem startSentinel_inj {a b : String}
    (h : startSentinel a = startSentinel b) : a = b := by
  have hd : ("# confik:start:" ++ a).data = ("# confik:start:" ++ b).data := by
    simpa [startSentinel] using congrArg String.data h
  rw [strData_append, strData_append] at hd
  have h2 := List.append_cancel_left hd
  cases a; cases b; exact congrArg String.mk h2

theorem endSentinel_inj {a b : String}
    (h : endSentinel a = endSentinel b) : a = b := by
  have hd : ("# confik:end:" ++ a).data = ("# confik:end:" ++ b).data := by
    simpa [endSentinel] using congrArg String.data h
  rw [strData_append, strData_append] at hd
  have h2 := List.append_cancel_left hd
  cases a; cases b; exact congrArg String.mk h2

theorem end_not_start (r : String) :
    strStartsWith (endSentinel r) "# confik:start:" = false := rfl

theorem start_has_start (r : String) :
    strStartsWith (startSentinel r) "# confik:start:" = true :=
  strStartsWith_append_self "# confik:start:" r

theorem end_has_end (r : String) :
    strStartsWith (endSentinel r) "# confik:end:" = true :=
  strStartsWith_append_self "# confik:end:" r

/-! ## Behaviour of the strip fold on structured line lists -/

theorem cond_start_false {runID l : String} (hA : runID ≠ "")
    (hl : l ≠ startSentinel runID) :
    (strStartsWith l "# confik:start:" &&
      (runID == "" || l == startSentinel runID)) = false := by
  have h1 : (runID == "") = false := by simpa using hA
  have h2 : (l == startSentinel runID) = false := by simpa using hl
  simp [h1, h2]

theorem cond_end_false {runID l : String} (hA : runID ≠ "")
    (hl : l ≠ endSentinel runID) :
    (strStartsWith l "# confik:end:" &&
      (runID == "" || l == endSentinel runID)) = false := by
  have h1 : (runID == "") = false := by simpa using hA
  have h2 : (l == endSentinel runID) = false := by simpa using hl
  simp [h1, h2]

theorem stripStep_keep {runID l : String} (out : List String)
    (h : (strStartsWith l "# confik:start:" &&
      (runID == "" || l == startSentinel runID)) = false) :
    stripStep runID (false, out) l = (false, out ++ [l]) := by
  simp [stripStep, h]

theorem foldl_strip_keep {runID : String} {seg : List String}
    (h : ∀ l ∈ seg, (strStartsWith l "# confik:start:" &&
      (runID == "" || l == startSentinel runID)) = false)
    (out : List String) :
    seg.foldl (stripStep runID) (false, out) = (false, out ++ seg) := by
  induction seg generalizing out with
  | nil => simp
  | cons l ls ih =>
    rw [List.foldl_cons, stripStep_keep out (h l (by simp)),
      ih (fun x hx => h x (by simp [hx]))]
    simp

theorem foldl_strip_skip {runID : String} {seg : List String}
    (h : ∀ l ∈ seg, (strStartsWith l "# confik:end:" &&
      (runID == "" || l == endSentinel runID)) = false)
    (out : List String) :
    seg.foldl (stripStep runID) (true, out) = (true, out) := by
  induction seg with
  | nil => simp
  | cons l ls ih =>
    have step : stripStep runID (true, out) l = (true, out) := by
      cases hc : (strStartsWith l "# confik:start:" &&
          (runID == "" || l == startSentinel runID)) with
      | true => simp [stripStep, hc]
      | false => simp [stripStep, hc, h l (by simp)]
    rw [List.foldl_cons, step, ih (fun x hx => h x (by simp [hx]))]

theorem stripStep_start (runID : String) (b : Bool) (out : List String) :
    stripStep runID (b, out) (startSentinel runID) = (true, out) := by
  simp [stripStep, start_has_start]

theorem stripStep_end (runID : String) (out : List String) :
    stripStep runID (true, out) (endSentinel runID) = (false, out) := by
  simp [stripStep, end_not_start, end_has_end]

/-- A trailing newline in the input survives `removeGitIgnoreBlocks`
(the final fix-up step restores it whenever the joined output lost it). -/
theorem removeGitIgnoreBlocks_trailing {content : String} (runID : String)
    (h : strEndsWith content "\n" = true) :
    strEndsWith (removeGitIgnoreBlocks content runID) "\n" = true := by
  unfold removeGitIgnoreBlocks
  cases hr : strEndsWith
      (joinLines (List.foldl (stripStep runID) (false, []) (splitLines content)).2)
      "\n" with
  | false => simpa [h, hr] using strEndsWith_append_nl _
  | true => simp [h, hr]

theorem strip_two_blocks {A B : String} {pre bodyA mid bodyB post : List String}
    (hA : A ≠ "") (hAB : A ≠ B)
    (hpre : startSentinel A ∉ pre) (hbodyA : endSentinel A ∉ bodyA)
    (hmid : startSentinel A ∉ mid) (hbodyB : startSentinel A ∉ bodyB)
    (hpost : startSentinel A ∉ post) :
    List.foldl (stripStep A) (false, [])
      (pre ++ startSentinel A :: (bodyA ++ endSentinel A ::
        (mid ++ startSentinel B :: (bodyB ++ endSentinel B :: post))))
      = (false, pre ++ mid ++ startSentinel B ::
          (bodyB ++ endSentinel B :: post)) := by
  have hsB : (strStartsWith (startSentinel B) "# confik:start:" &&
      (A == "" || startSentinel B == startSentinel A)) = false :=
    cond_start_false hA (fun h => hAB (startSentinel_inj h).symm)
  have heB : (strStartsWith (endSentinel B) "# confik:start:" &&
      (A == "" || endSentinel B == startSentinel A)) = false := by
    simp [end_not_start]
  rw [List.foldl_append,
    foldl_strip_keep (fun l hl => cond_start_false hA (fun he => hpre (he ▸ hl))) [],
    List.foldl_cons, stripStep_start, List.foldl_append,
    foldl_strip_skip (fun l hl => cond_end_false hA (fun he => hbodyA (he ▸ hl))),
    List.foldl_cons, stripStep_end, List.foldl_append,
    foldl_strip_keep (fun l hl => cond_start_false hA (fun he => hmid (he ▸ hl))),
    List.foldl_cons, stripStep_keep _ hsB, List.foldl_append,
    foldl_strip_keep (fun l hl => cond_start_false hA (fun he => hbodyB (he ▸ hl))),
    List.foldl_cons, stripStep_keep _ heB,
    foldl_strip_keep (fun l hl => cond_start_false hA (fun he => hpost (he ▸ hl)))]
  simp

theorem strip_unclosed {A : String} {pre tl : List String}
    (hA : A ≠ "") (hpre : startSentinel A ∉ pre) (htl : endSentinel A ∉ tl) :
    List.foldl (stripStep A) (false, []) (pre ++ startSentinel A :: tl)
      = (true, pre) := by
  rw [List.foldl_append,
    foldl_strip_keep (fun l hl => cond_start_false hA (fun he => hpre (he ▸ hl))) [],
    List.foldl_cons, stripStep_start,
    foldl_strip_skip (fun l hl => cond_end_false hA (fun he => htl (he ▸ hl)))]
  simp

/-! ## Prefix facts about the appended block -/

theorem chStarts_joinLines_cons (x : String) (xs : List String)
    (suf : List Char) :
    chStarts x.data ((joinLines (x :: xs)).data ++ suf) = true := by
  cases xs with
  | nil => simpa [joinLines, joinSep] using chStarts_append x.data suf
  | cons y ys =>
    have hshape : (joinLines (x :: y :: ys)).data ++ suf =
        x.data ++ ("\n".data ++ ((joinSep "\n" (y :: ys)).data ++ suf)) := by
      simp [joinLines, joinSep, strData_append, List.append_assoc]
    rw [hshape]
    exact chStarts_append _ _

theorem strContains_append_block (s runID : String) (paths : List String) :
    strContains (s ++ mkIgnoreBlock runID paths) (startSentinel runID)
      = true := by
  unfold strContains mkIgnoreBlock
  rw [strData_append, strData_append]
  exact chInfix_of_chStarts (chStarts_joinLines_cons _ _ _) s.data

/-! ## Claim theorems for the ignore-block editor -/

/-- C4: for every ignore-file content whose lines decompose into two
distinct tagged blocks `A` and `B` (with untagged lines around them),
`removeGitIgnoreBlocks content A` excises exactly the lines between `A`'s
own sentinels: `B`'s block and all untagged lines are kept verbatim in
order, and a trailing newline in the original content is preserved. -/
theorem claim4_scoped_block_removal (content A B : String)
    (pre bodyA mid bodyB post : List String)
    (hA : A ≠ "") (hAB : A ≠ B)
    (hsplit : splitLines content =
      pre ++ startSentinel A :: (bodyA ++ endSentinel A ::
        (mid ++ startSentinel B :: (bodyB ++ endSentinel B :: post))))
    (hpre : startSentinel A ∉ pre) (hbodyA : endSentinel A ∉ bodyA)
    (hmid : startSentinel A ∉ mid) (hbodyB : startSentinel A ∉ bodyB)
    (hpost : startSentinel A ∉ post) :
    (removeGitIgnoreBlocks content A =
      (let kept := joinLines (pre ++ mid ++ startSentinel B ::
        (bodyB ++ endSentinel B :: post))
       if strEndsWith content "\n" && !strEndsWith kept "\n" then kept ++ "\n"
       else kept))
    ∧ (strEndsWith content "\n" = true →
        strEndsWith (removeGitIgnoreBlocks content A) "\n" = true) := by
  refine ⟨?_, removeGitIgnoreBlocks_trailing A⟩
  unfold removeGitIgnoreBlocks
  rw [hsplit, strip_two_blocks hA hAB hpre hbodyA hmid hbodyB hpost]

/-- C8: an ignore-file content with a start sentinel for `A` and no
matching end sentinel afterwards has everything from that start sentinel
to end-of-file removed by `removeGitIgnoreBlocks` (the unterminated block
swallows the rest); the function is total, so the operation never
errors. -/
theorem claim8_unclosed_block (content A : String) (pre tl : List String)
    (hA : A ≠ "")
    (hsplit : splitLines content = pre ++ startSentinel A :: tl)
    (hpre : startSentinel A ∉ pre) (htl : endSentinel A ∉ tl) :
    removeGitIgnoreBlocks content A =
      (let kept := joinLines pre
       if strEndsWith content "\n" && !strEndsWith kept "\n" then kept ++ "\n"
       else kept) := by
  unfold removeGitIgnoreBlocks
  rw [hsplit, strip_unclosed hA hpre htl]

theorem claim4_scoped_block_removal_witness :
    (splitLines
        "keep\n# confik:start:aa\nx\n# confik:end:aa\nmid\n# confik:start:bb\ny\n# confik:end:bb\ntail\n" =
      ["keep"] ++ startSentinel "aa" :: (["x"] ++ endSentinel "aa" ::
        (["mid"] ++ startSentinel "bb" :: (["y"] ++ endSentinel "bb" ::
          ["tail", ""]))))
    ∧ ((removeGitIgnoreBlocks
        "keep\n# confik:start:aa\nx\n# confik:end:aa\nmid\n# confik:start:bb\ny\n# confik:end:bb\ntail\n"
        "aa" =
      (let kept := joinLines (["keep"] ++ ["mid"] ++ startSentinel "bb" ::
        (["y"] ++ endSentinel "bb" :: ["tail", ""]))
       if strEndsWith
            "keep\n# confik:start:aa\nx\n# confik:end:aa\nmid\n# confik:start:bb\ny\n# confik:end:bb\ntail\n"
            "\n" && !strEndsWith kept "\n" then kept ++ "\n"
       else kept))
    ∧ (strEndsWith
          "keep\n# confik:start:aa\nx\n# confik:end:aa\nmid\n# confik:start:bb\ny\n# confik:end:bb\ntail\n"
          "\n" = true →
        strEndsWith
          (removeGitIgnoreBlocks
            "keep\n# confik:start:aa\nx\n# confik:end:aa\nmid\n# confik:start:bb\ny\n# confik:end:bb\ntail\n"
            "aa") "\n" = true)) :=
  ⟨by decide,
   claim4_scoped_block_removal _ "aa" "bb" ["keep"] ["x"] ["mid"] ["y"]
     ["tail", ""] (by decide) (by decide) (by decide) (by decide) (by decide)
     (by decide) (by decide) (by decide)⟩

theorem claim8_unclosed_block_witness :
    (splitLines "head\n# confik:start:zz\norphan\nrest\n" =
      ["head"] ++ startSentinel "zz" :: ["orphan", "rest", ""])
    ∧ (removeGitIgnoreBlocks "head\n# confik:start:zz\norphan\nrest\n" "zz" =
      (let kept := joinLines ["head"]
       if strEndsWith "head\n# confik:start:zz\norphan\nrest\n" "\n" &&
            !strEndsWith kept "\n" then kept ++ "\n"
       else kept)) :=
  ⟨by decide,
   claim8_unclosed_block _ "zz" ["head"] ["orphan", "rest", ""] (by decide)
     (by decide) (by decide) (by decide)⟩

/-- C5: appending an ignore block is idempotent: a second
`appendGitIgnoreBlock` with the same run id and path list leaves the
ignore file content byte-identical, the duplicate being detected by the
presence of the start sentinel line. -/
theorem claim5_append_idempotent (existing : Option String) (runID : String)
    (paths : List String) :
    appendGitIgnoreBlockContent
        (some (appendGitIgnoreBlockContent existing runID paths)) runID paths
      = appendGitIgnoreBlockContent existing runID paths := by
  cases hc : (existing.isSome &&
      strContains (existing.getD "") (startSentinel runID)) with
  | true =>
    have hcont : strContains (existing.getD "") (startSentinel runID)
        = true := by
      have h2 := hc
      simp only [Bool.and_eq_true] at h2
      exact h2.2
    have hr : appendGitIgnoreBlockContent existing runID paths
        = existing.getD "" := by
      simp [appendGitIgnoreBlockContent, hc]
    rw [hr]
    simp [appendGitIgnoreBlockContent, hcont]
  | false =>
    have hr : appendGitIgnoreBlockContent existing runID paths =
        (if !(existing.getD "" == "") && !strEndsWith (existing.getD "") "\n"
         then existing.getD "" ++ "\n" else existing.getD "")
          ++ mkIgnoreBlock runID paths := by
      simp [appendGitIgnoreBlockContent, hc]
    rw [hr]
    simp [appendGitIgnoreBlockContent, strContains_append_block]

/-! ## Editor-settings documents (vscode.go, hujson-backed)

A parsed JSON-with-comments settings document is modeled as an ordered
member list; member names are string literals (hujson's `literalString`),
member values either nested objects or opaque non-object values.
Formatting extras (whitespace, comment placement) are not part of the
model; whether the raw bytes contain a comment token
(`containsJSONCComment`) is carried alongside parsed documents as a
boolean. -/

inductive HValue where
  | obj : List (String × HValue) → HValue
  | prim : HValue

abbrev HObj := List (String × HValue)

/-- `containsJSONCComment` (vscode.go): scans the raw bytes outside of
string literals for a `//` or a block-comment opener. -/
def containsJSONCCommentAux : List Char → Bool → Bool → Bool
  | [], _, _ => false
  | ch :: rest, true, esc =>
    if esc then containsJSONCCommentAux rest true false
    else if ch == '\\' then containsJSONCCommentAux rest true true
    else if ch == '"' then containsJSONCCommentAux rest false false
    else containsJSONCCommentAux rest true false
  | ch :: rest, false, _ =>
    if ch == '"' then containsJSONCCommentAux rest true false
    else if ch == '/' then
      match rest with
      | c2 :: _ =>
        if c2 == '/' || c2 == '*' then true
        else containsJSONCCommentAux rest false false
      | [] => false
    else containsJSONCCommentAux rest false false

def containsJSONCComment (content : String) : Bool :=
  containsJSONCCommentAux content.data false false

/-- `findObjectMember`: index and members of the first member named
`name`; `none` both when no member matches and when the first matching
member's value is not an object (the callers treat the two cases
identically). -/
def findObjectMember (root : HObj) (name : String) : Option (Nat × HObj) :=
  match root with
  | [] => none
  | (n, v) :: rest =>
    if n = name then
      match v with
      | .obj o => some (0, o)
      | .prim => none
    else
      (findObjectMember rest name).map (fun r => (r.1 + 1, r.2))

/-- `removeObjectMember`: delete the first member named `key`, reporting
whether one was found. -/
def eraseKeyOnce (members : HObj) (key : String) : HObj × Bool :=
  match members with
  | [] => ([], false)
  | (n, v) :: rest =>
    if n = key then (rest, true)
    else
      let r := eraseKeyOnce rest key
      ((n, v) :: r.1, r.2)

/-- One iteration of the `for _, key := range ctx.AddedKeys` removal loop
of `removeVSCodeExcludes`. -/
def removeKeysStep (st : HObj × Bool) (k : String) : HObj × Bool :=
  ((eraseKeyOnce st.1 k).1, st.2 || (eraseKeyOnce st.1 k).2)

/-- The key-removal loop of `removeVSCodeExcludes`, accumulating the
`changed` flag. -/
def removeKeysFromMap (excl : HObj) (keys : List String) : HObj × Bool :=
  keys.foldl removeKeysStep (excl, false)

structure VSCodeContextM where
  settingsPath : List String
  addedKeys : List String
  filesExcludeCreated : Bool
  settingsCreated : Bool

/-- Document-level core of `removeVSCodeExcludes` (vscode.go 361-407):
given the parsed document `root` and whether the raw bytes contain a
comment token, returns the resulting document, whether it was rewritten,
and whether the settings file is deleted afterwards
(`removeVSCodeSettingsIfEmpty` with an empty map always removes). -/
def removeVSCodeExcludesDoc (ctx : VSCodeContextM) (root : HObj)
    (hasComment : Bool) : HObj × Bool × Bool :=
  match findObjectMember root "files.exclude" with
  | none => (root, false, false)
  | some (i, excl) =>
    let r := removeKeysFromMap excl ctx.addedKeys
    if ctx.filesExcludeCreated && r.1.isEmpty then
      let root2 := root.eraseIdx i
      (root2, true, ctx.settingsCreated && root2.isEmpty && !hasComment)
    else if r.2 then
      let root2 := root.set i ("files.exclude", .obj r.1)
      (root2, true, ctx.settingsCreated && root2.isEmpty && !hasComment)
    else
      (root, false, ctx.settingsCreated && root.isEmpty && !hasComment)

/-- The `files.exclude` map of a document (empty when absent or not an
object). -/
def excludeMapOf (root : HObj) : HObj :=
  match findObjectMember root "files.exclude" with
  | some r => r.2
  | none => []

/-! ## Lemmas about the document operations -/

theorem eraseKeyOnce_flag_false {m : HObj} {k : String}
    (h : (eraseKeyOnce m k).2 = false) : (eraseKeyOnce m k).1 = m := by
  induction m with
  | nil => rfl
  | cons e rest ih =>
    obtain ⟨n, v⟩ := e
    by_cases hk : n = k
    · simp [eraseKeyOnce, hk] at h
    · simp only [eraseKeyOnce, hk, if_false] at h ⊢
      simpa using ih h

theorem filter_ne_of_not_mem {m : HObj} {k : String}
    (h : k ∉ m.map Prod.fst) : m.filter (fun e => !(e.1 == k)) = m := by
  induction m with
  | nil => rfl
  | cons e rest ih =>
    simp only [List.map_cons, List.mem_cons, not_or] at h
    have h1 : (e.1 == k) = false := by
      simpa using fun hh => h.1 (by simp [hh])
    simp [List.filter_cons, h1, ih h.2]

theorem eraseKeyOnce_eq_filter {m : HObj} (k : String)
    (h : (m.map Prod.fst).Nodup) :
    (eraseKeyOnce m k).1 = m.filter (fun e => !(e.1 == k)) := by
  induction m with
  | nil => rfl
  | cons e rest ih =>
    obtain ⟨n, v⟩ := e
    simp only [List.map_cons, List.nodup_cons] at h
    by_cases hk : n = k
    · subst hk
      have he : eraseKeyOnce ((n, v) :: rest) n = (rest, true) := by
        simp [eraseKeyOnce]
      have hf : ((n, v) :: rest).filter (fun e => !(e.1 == n))
          = rest.filter (fun e => !(e.1 == n)) := by
        simp [List.filter_cons]
      rw [he, hf]
      exact (filter_ne_of_not_mem h.1).symm
    · have hkb : (n == k) = false := by simpa using hk
      simp [eraseKeyOnce, hk, List.filter_cons, hkb, ih h.2]

theorem namesNodup_filter {m : HObj} (p : String × HValue → Bool)
    (h : (m.map Prod.fst).Nodup) : ((m.filter p).map Prod.fst).Nodup :=
  h.sublist ((m.filter_sublist).map Prod.fst)

theorem removeKeysStep_pair (m : HObj) (b : Bool) (k : String) :
    removeKeysStep (m, b) k
      = ((eraseKeyOnce m k).1, b || (eraseKeyOnce m k).2) := rfl

theorem removeKeysAux_eq_filter (keys : List String) (m : HObj) (b : Bool)
    (h : (m.map Prod.fst).Nodup) :
    (keys.foldl removeKeysStep (m, b)).1
      = m.filter (fun e => !(keys.contains e.1)) := by
  induction keys generalizing m b with
  | nil => simp
  | cons k ks ih =>
    rw [List.foldl_cons, removeKeysStep_pair]
    rw [ih ((eraseKeyOnce m k).1) _
      (eraseKeyOnce_eq_filter k h ▸ namesNodup_filter _ h),
      eraseKeyOnce_eq_filter k h, List.filter_filter]
    refine List.filter_congr (fun e _ => ?_)
    simp only [List.contains_cons, Bool.not_or]
    exact Bool.and_comm _ _

theorem removeKeys_eq_filter {excl : HObj} (keys : List String)
    (h : (excl.map Prod.fst).Nodup) :
    (removeKeysFromMap excl keys).1
      = excl.filter (fun e => !(keys.contains e.1)) :=
  removeKeysAux_eq_filter keys excl false h

theorem removeKeysAux_flag_mono (keys : List String) (m : HObj) :
    (keys.foldl removeKeysStep (m, true)).2 = true := by
  induction keys generalizing m with
  | nil => rfl
  | cons k ks ih =>
    rw [List.foldl_cons, removeKeysStep_pair, Bool.true_or]
    exact ih (eraseKeyOnce m k).1

theorem removeKeysAux_flag_false (keys : List String) (m : HObj)
    (h : (keys.foldl removeKeysStep (m, false)).2 = false) :
    (keys.foldl removeKeysStep (m, false)).1 = m := by
  induction keys generalizing m with
  | nil => rfl
  | cons k ks ih =>
    rw [List.foldl_cons, removeKeysStep_pair, Bool.false_or] at h ⊢
    cases he : (eraseKeyOnce m k).2 with
    | true =>
      rw [he, removeKeysAux_flag_mono] at h
      exact absurd h (by simp)
    | false =>
      rw [he] at h
      rw [eraseKeyOnce_flag_false he] at h ⊢
      exact ih m h

theorem removeKeys_flag_false {excl : HObj} {keys : List String}
    (h : (removeKeysFromMap excl keys).2 = false) :
    (removeKeysFromMap excl keys).1 = excl :=
  removeKeysAux_flag_false keys excl h

theorem fom_none_of_not_mem {root : HObj} {name : String}
    (h : name ∉ root.map Prod.fst) : findObjectMember root name = none := by
  induction root with
  | nil => rfl
  | cons e rest ih =>
    obtain ⟨n, v⟩ := e
    simp only [List.map_cons, List.mem_cons, not_or] at h
    have hn : ¬ n = name := fun hh => h.1 hh.symm
    simp [findObjectMember, hn, ih h.2]

theorem fom_cons_self_obj (n : String) (o rest : HObj) :
    findObjectMember ((n, HValue.obj o) :: rest) n = some (0, o) := by
  simp [findObjectMember]

theorem fom_cons_self_prim (n : String) (rest : HObj) :
    findObjectMember ((n, HValue.prim) :: rest) n = none := by
  simp [findObjectMember]

theorem fom_cons_ne {n name : String} (hn : ¬ n = name) (v : HValue)
    (rest : HObj) :
    findObjectMember ((n, v) :: rest) name
      = (findObjectMember rest name).map (fun r => (r.1 + 1, r.2)) := by
  simp [findObjectMember, hn]

theorem fom_set {root : HObj} {name : String} {i : Nat} {excl : HObj}
    (h : findObjectMember root name = some (i, excl)) (e2 : HObj) :
    findObjectMember (root.set i (name, .obj e2)) name = some (i, e2) := by
  induction root generalizing i with
  | nil => simp [findObjectMember] at h
  | cons hd rest ih =>
    obtain ⟨n, v⟩ := hd
    by_cases hn : n = name
    · subst hn
      cases v with
      | obj o =>
        rw [fom_cons_self_obj] at h
        obtain ⟨hi, -⟩ : 0 = i ∧ o = excl := by simpa using h
        subst hi
        exact fom_cons_self_obj n e2 rest
      | prim =>
        rw [fom_cons_self_prim] at h
        exact absurd h (by simp)
    · rw [fom_cons_ne hn] at h
      cases hrest : findObjectMember rest name with
      | none =>
        rw [hrest] at h
        exact absurd h (by simp)
      | some r =>
        rw [hrest] at h
        obtain ⟨hi, hex⟩ : r.1 + 1 = i ∧ r.2 = excl := by simpa using h
        subst hi
        have hrest2 : findObjectMember rest name = some (r.1, excl) := by
          rw [hrest, ← hex]
        rw [show ((n, v) :: rest).set (r.1 + 1) (name, HValue.obj e2)
            = (n, v) :: rest.set r.1 (name, HValue.obj e2) from rfl]
        rw [fom_cons_ne hn, ih hrest2]
        rfl

theorem fom_erase {root : HObj} {name : String} {i : Nat} {excl : HObj}
    (hnd : (root.map Prod.fst).Nodup)
    (h : findObjectMember root name = some (i, excl)) :
    findObjectMember (root.eraseIdx i) name = none := by
  induction root generalizing i with
  | nil => simp [findObjectMember] at h
  | cons hd rest ih =>
    obtain ⟨n, v⟩ := hd
    simp only [List.map_cons, List.nodup_cons] at hnd
    by_cases hn : n = name
    · subst hn
      cases v with
      | obj o =>
        rw [fom_cons_self_obj] at h
        obtain ⟨hi, -⟩ : 0 = i ∧ o = excl := by simpa using h
        subst hi
        exact fom_none_of_not_mem hnd.1
      | prim =>
        rw [fom_cons_self_prim] at h
        exact absurd h (by simp)
    · rw [fom_cons_ne hn] at h
      cases hrest : findObjectMember rest name with
      | none =>
        rw [hrest] at h
        exact absurd h (by simp)
      | some r =>
        rw [hrest] at h
        obtain ⟨hi, hex⟩ : r.1 + 1 = i ∧ r.2 = excl := by simpa using h
        subst hi
        have hrest2 : findObjectMember rest name = some (r.1, excl) := by
          rw [hrest, ← hex]
        rw [show ((n, v) :: rest).eraseIdx (r.1 + 1)
            = (n, v) :: rest.eraseIdx r.1 from rfl]
        rw [fom_cons_ne hn, ih hnd.2 hrest2]
        rfl

/-- C6: reversing an editor-settings patch removes from the
`files.exclude` map exactly the keys recorded in the context (keys added
by others are preserved, values untouched), and the settings file is
deleted (followed by its directory if empty, inside
`removeVSCodeSettingsIfEmpty`) only when the resulting document is
structurally empty, the context created the whole document, and the raw
document contains no comment token. -/
theorem claim6_remove_excludes (ctx : VSCodeContextM) (root : HObj)
    (hasComment : Bool) (i : Nat) (excl : HObj)
    (hfind : findObjectMember root "files.exclude" = some (i, excl))
    (hroot : (root.map Prod.fst).Nodup)
    (hexcl : (excl.map Prod.fst).Nodup) :
    excludeMapOf (removeVSCodeExcludesDoc ctx root hasComment).1
        = excl.filter (fun e => !(ctx.addedKeys.contains e.1))
    ∧ ((removeVSCodeExcludesDoc ctx root hasComment).2.2 = true →
        ctx.settingsCreated = true
          ∧ (removeVSCodeExcludesDoc ctx root hasComment).1 = []
          ∧ hasComment = false) := by
  have hfilter := removeKeys_eq_filter ctx.addedKeys hexcl
  have hunfold : removeVSCodeExcludesDoc ctx root hasComment =
      (if ctx.filesExcludeCreated
          && (removeKeysFromMap excl ctx.addedKeys).1.isEmpty then
        (root.eraseIdx i, true,
          ctx.settingsCreated && (root.eraseIdx i).isEmpty && !hasComment)
      else if (removeKeysFromMap excl ctx.addedKeys).2 then
        (root.set i ("files.exclude",
            .obj (removeKeysFromMap excl ctx.addedKeys).1), true,
          ctx.settingsCreated
            && (root.set i ("files.exclude",
                  .obj (removeKeysFromMap excl ctx.addedKeys).1)).isEmpty
            && !hasComment)
      else
        (root, false,
          ctx.settingsCreated && root.isEmpty && !hasComment)) := by
    simp only [removeVSCodeExcludesDoc, hfind]
  rw [hunfold]
  by_cases h1 : (ctx.filesExcludeCreated
      && (removeKeysFromMap excl ctx.addedKeys).1.isEmpty) = true
  · rw [if_pos h1]
    have hempty : (removeKeysFromMap excl ctx.addedKeys).1 = [] := by
      have h1c := h1
      simp only [Bool.and_eq_true, List.isEmpty_iff] at h1c
      exact h1c.2
    constructor
    · show excludeMapOf (root.eraseIdx i) = _
      unfold excludeMapOf
      rw [fom_erase hroot hfind, ← hfilter, hempty]
    · intro hdel
      simp only [Bool.and_eq_true, List.isEmpty_iff,
        Bool.not_eq_true'] at hdel
      exact ⟨hdel.1.1, hdel.1.2, hdel.2⟩
  · rw [if_neg h1]
    by_cases h2 : (removeKeysFromMap excl ctx.addedKeys).2 = true
    · rw [if_pos h2]
      constructor
      · show excludeMapOf (root.set i ("files.exclude",
          .obj (removeKeysFromMap excl ctx.addedKeys).1)) = _
        unfold excludeMapOf
        rw [fom_set hfind]
        exact hfilter
      · intro hdel
        simp only [Bool.and_eq_true, List.isEmpty_iff,
          Bool.not_eq_true'] at hdel
        exact ⟨hdel.1.1, hdel.1.2, hdel.2⟩
    · rw [if_neg h2]
      have h2f : (removeKeysFromMap excl ctx.addedKeys).2 = false := by
        simpa using h2
      have hsame := removeKeys_flag_false h2f
      constructor
      · show excludeMapOf root = _
        unfold excludeMapOf
        rw [hfind, ← hfilter, hsame]
      · intro hdel
        have hroot_ne : root ≠ [] := by
          intro hnil
          rw [hnil] at hfind
          simp [findObjectMember] at hfind
        have hie : root.isEmpty = false := by
          cases hr : root.isEmpty with
          | false => rfl
          | true => exact absurd (List.isEmpty_iff.mp hr) hroot_ne
        rw [hie] at hdel
        simp at hdel

theorem claim6_remove_excludes_witness :
    (findObjectMember
        [("editor.tabSize", HValue.prim),
         ("files.exclude",
           HValue.obj [("a.txt", HValue.prim), ("b.txt", HValue.prim)])]
        "files.exclude"
      = some (1, [("a.txt", HValue.prim), ("b.txt", HValue.prim)]))
    ∧ (excludeMapOf
        (removeVSCodeExcludesDoc
          ⟨[".vscode", "settings.json"], ["a.txt"], false, false⟩
          [("editor.tabSize", HValue.prim),
           ("files.exclude",
             HValue.obj [("a.txt", HValue.prim), ("b.txt", HValue.prim)])]
          true).1
        = [("a.txt", HValue.prim), ("b.txt", HValue.prim)].filter
            (fun e => !((["a.txt"] : List String).contains e.1))
      ∧ ((removeVSCodeExcludesDoc
          ⟨[".vscode", "settings.json"], ["a.txt"], false, false⟩
          [("editor.tabSize", HValue.prim),
           ("files.exclude",
             HValue.obj [("a.txt", HValue.prim), ("b.txt", HValue.prim)])]
          true).2.2 = true →
        (false : Bool) = true
          ∧ (removeVSCodeExcludesDoc
              ⟨[".vscode", "settings.json"], ["a.txt"], false, false⟩
              [("editor.tabSize", HValue.prim),
               ("files.exclude",
                 HValue.obj [("a.txt", HValue.prim), ("b.txt", HValue.prim)])]
              true).1 = []
          ∧ (true : Bool) = false)) :=
  ⟨rfl,
   claim6_remove_excludes
     ⟨[".vscode", "settings.json"], ["a.txt"], false, false⟩
     [("editor.tabSize", HValue.prim),
      ("files.exclude",
        HValue.obj [("a.txt", HValue.prim), ("b.txt", HValue.prim)])]
     true 1 [("a.txt", HValue.prim), ("b.txt", HValue.prim)]
     rfl (by decide) (by decide)⟩

/-! ## Filesystem model

Paths are segment lists rooted at `/` (`[]` is the root directory, which
always exists). Regular files map to a `FileData`; parsed settings
documents are carried in structured form (`jsonc members hasComment`,
the boolean standing for `containsJSONCComment` of the raw bytes), the
manifest as its record. OS failures that the code distinguishes are
injected through an `Oracle`: `statFails` (a non-`ErrNotExist` stat
error in `ensureDirWithCache`), `copyFails` (a failing byte copy),
`removeDenied` (a non-`ErrNotExist` removal error), `unlockFails`.
File writes are total in the model. -/

abbrev Path := List String

structure GitContextM where
  gitRoot : Path
  gitDir : Path
  excludePath : Path
  runID : String

structure ManifestM where
  runID : String
  createdFiles : List Path
  createdDirs : List Path
  gitignore : Option GitContextM
  vscode : Option VSCodeContextM

inductive FileData where
  | text : String → FileData
  | jsonc : HObj → Bool → FileData
  | manifest : ManifestM → FileData

structure FS where
  files : List (Path × FileData)
  dirs : List Path

def FS.lookupFile (fs : FS) (p : Path) : Option FileData :=
  (fs.files.find? (fun e => e.1 == p)).map (·.2)

def FS.hasFile (fs : FS) (p : Path) : Bool :=
  (fs.lookupFile p).isSome

def FS.isDir (fs : FS) (p : Path) : Bool :=
  p.isEmpty || fs.dirs.contains p

def pathExists (fs : FS) (p : Path) : Bool :=
  fs.hasFile p || fs.isDir p

def FS.writeFile (fs : FS) (p : Path) (d : FileData) : FS :=
  { fs with files := (p, d) :: fs.files.filter (fun e => !(e.1 == p)) }

def FS.removeFileEntry (fs : FS) (p : Path) : FS :=
  { fs with files := fs.files.filter (fun e => !(e.1 == p)) }

def FS.removeDirEntry (fs : FS) (p : Path) : FS :=
  { fs with dirs := fs.dirs.filter (fun d => !(d == p)) }

/-- `q` lies strictly under directory `p`. -/
def isUnder (p q : Path) : Bool :=
  p.isPrefixOf q && decide (p.length < q.length)

/-- A directory is empty when nothing in the filesystem lies under it
(Go reads the immediate entries; in a well-formed tree both notions
agree). -/
def dirEmpty (fs : FS) (p : Path) : Bool :=
  fs.files.all (fun e => !(isUnder p e.1)) && fs.dirs.all (fun d => !(isUnder p d))

structure Oracle where
  statFails : Path → Bool
  copyFails : Path → Bool
  removeDenied : Path → Bool
  unlockFails : Bool

inductive RmResult where
  | ok | notExist | failed
deriving DecidableEq

/-- `os.Remove`: denial gives a non-`ErrNotExist` error; a present file
is removed; a present directory is removed only when empty; a missing
path yields `ErrNotExist`. -/
def osRemove (oracle : Oracle) (fs : FS) (p : Path) : FS × RmResult :=
  if oracle.removeDenied p then (fs, .failed)
  else if fs.hasFile p then (fs.removeFileEntry p, .ok)
  else if fs.isDir p then
    if dirEmpty fs p then (fs.removeDirEntry p, .ok) else (fs, .failed)
  else (fs, .notExist)

/-- `removeDirIfEmptyChecked` (fs.go): returns (fs, removed, errored).
A missing directory counts as removed; reading a regular file as a
directory errors; a non-empty directory is (false, no error). -/
def removeDirIfEmptyCheckedM (oracle : Oracle) (fs : FS) (p : Path) :
    FS × Bool × Bool :=
  if fs.isDir p then
    if !dirEmpty fs p then (fs, false, false)
    else if oracle.removeDenied p then (fs, false, true)
    else (fs.removeDirEntry p, true, false)
  else if fs.hasFile p then (fs, false, true)
  else (fs, true, false)

def pathPrefixes (p : Path) : List Path :=
  (List.range p.length).map (fun k => p.take (k + 1))

/-- `os.MkdirAll`: fails when some prefix of the path already exists as
a regular file, otherwise creates every missing directory on the way. -/
def mkdirAll (fs : FS) (p : Path) : Option FS :=
  if (pathPrefixes p).any (fun q => fs.hasFile q) then none
  else
    some { fs with
      dirs := fs.dirs ++ (pathPrefixes p).filter (fun q => !fs.dirs.contains q) }

/-! ## `ensureDirWithCache` (fs.go 23-86) -/

inductive CollectRes where
  | found : List Path → List Path → CollectRes
  | notDir : CollectRes
  | statErr : CollectRes

/-- The upward walk of `ensureDirWithCache` collecting the missing
ancestors (deepest first) until a cached or existing directory is found;
threads the cache updates made on the way. -/
def collectMissing (oracle : Oracle) (fs : FS) (current : Path)
    (cache missing : List Path) : CollectRes :=
  if cache.contains current then .found missing cache
  else if oracle.statFails current then .statErr
  else if fs.hasFile current then .notDir
  else if fs.isDir current then .found missing (current :: cache)
  else if _hcur : current = [] then .found (missing ++ [current]) cache
  else collectMissing oracle fs current.dropLast cache (missing ++ [current])
termination_by current.length
decreasing_by
  simp only [List.length_dropLast]
  have := List.length_pos.mpr _hcur
  omega

inductive EnsureRes where
  | ok | skip | err
deriving DecidableEq

/-- `ensureDirWithCache(dirPath, &createdDirs, dryRun, dirCache)`:
returns (result, fs, cache, createdDirs). `skip` is the policy signal
(false, nil) — an ancestor exists but is not a directory; `err` is an
actual error, which the staging walk treats as fatal. -/
def ensureDirWithCacheM (oracle : Oracle) (dryRun : Bool) (fs : FS)
    (cache createdDirs : List Path) (dirPath : Path) :
    EnsureRes × FS × List Path × List Path :=
  if cache.contains dirPath then (.ok, fs, cache, createdDirs)
  else if oracle.statFails dirPath then (.err, fs, cache, createdDirs)
  else if fs.hasFile dirPath then (.skip, fs, cache, createdDirs)
  else if fs.isDir dirPath then (.ok, fs, dirPath :: cache, createdDirs)
  else if dryRun then (.ok, fs, cache, createdDirs)
  else
    match collectMissing oracle fs dirPath cache [] with
    | .statErr => (.err, fs, cache, createdDirs)
    | .notDir => (.skip, fs, cache, createdDirs)
    | .found missing cache2 =>
      match mkdirAll fs dirPath with
      | none => (.err, fs, cache, createdDirs)
      | some fs2 => (.ok, fs2, missing ++ cache2, createdDirs ++ missing.reverse)

/-- The older per-component `ensureDir` (no cache), still used by
`applyVSCodeExcludes` for the `.vscode` directory: walks the components
top-down, recording each directory it creates. -/
def ensureDirGo (oracle : Oracle) (dryRun : Bool) (fs : FS)
    (createdDirs : List Path) (done : Path) :
    List String → EnsureRes × FS × List Path
  | [] => (.ok, fs, createdDirs)
  | c :: cs =>
    if oracle.statFails (done ++ [c]) then (.err, fs, createdDirs)
    else if fs.hasFile (done ++ [c]) then (.skip, fs, createdDirs)
    else if fs.isDir (done ++ [c]) then
      ensureDirGo oracle dryRun fs createdDirs (done ++ [c]) cs
    else if dryRun then
      ensureDirGo oracle dryRun fs createdDirs (done ++ [c]) cs
    else
      ensureDirGo oracle dryRun
        { fs with dirs := (done ++ [c]) :: fs.dirs }
        (createdDirs ++ [done ++ [c]]) (done ++ [c]) cs

/-! ## The staging walk (run, part of main.go) -/

def configFilename : String := "confik.json"

def manifestFilename : String := ".confik-manifest.json"

def lockFilename : String := ".confik.lock"

def joinSlash (l : List String) : String := joinSep "/" l

/-- A regular file discovered by `filepath.WalkDir` under `.config`:
its path relative to the config dir (as segments) and its bytes. -/
structure Entry where
  rel : List String
  content : String

/-- The run's configuration after flag/config resolution. The three
matchers stand for `matchesPatternList` applied to the user exclude
list, the registry patterns and the registry override list. -/
structure RunCfg where
  cwd : Path
  dryRun : Bool
  useGitignore : Bool
  useRegistry : Bool
  vscodeExclude : Bool
  runID : String
  excludeMatch : List String → Bool
  registryMatch : List String → Bool
  overrideMatch : List String → Bool

def configDirOf (cfg : RunCfg) : Path := cfg.cwd ++ [".config"]

def manifestPathOf (cfg : RunCfg) : Path :=
  configDirOf cfg ++ [manifestFilename]

inductive WalkErr where
  | ensureFail : Path → WalkErr
  | copyFail : Path → WalkErr

structure WalkSt where
  fs : FS
  cache : List Path
  createdFiles : List Path
  createdDirs : List Path
  skippedExisting : List String
  skippedExcluded : List String
  skippedRegistry : List String

/-- The per-file body of the staging walk (main.go 993-1045): reserved
names are skipped silently, then user excludes, then registry patterns
unless overridden, then the never-overwrite check; `ensureDirWithCache`'s
policy refusal counts as skip-existing while its error aborts the walk;
a failing byte copy aborts the walk. -/
def walkStep (oracle : Oracle) (cfg : RunCfg) (st : WalkSt) (e : Entry) :
    Except (WalkErr × WalkSt) WalkSt :=
  if joinSlash e.rel == configFilename
      || joinSlash e.rel == manifestFilename
      || joinSlash e.rel == lockFilename then .ok st
  else if cfg.excludeMatch e.rel then
    .ok { st with skippedExcluded := st.skippedExcluded ++ [joinSlash e.rel] }
  else if cfg.useRegistry && cfg.registryMatch e.rel
      && !cfg.overrideMatch e.rel then
    .ok { st with skippedRegistry := st.skippedRegistry ++ [joinSlash e.rel] }
  else if pathExists st.fs (cfg.cwd ++ e.rel) then
    .ok { st with skippedExisting := st.skippedExisting ++ [joinSlash e.rel] }
  else
    match ensureDirWithCacheM oracle cfg.dryRun st.fs st.cache st.createdDirs
        (cfg.cwd ++ e.rel).dropLast with
    | (.err, _, _, _) => .error (.ensureFail (cfg.cwd ++ e.rel).dropLast, st)
    | (.skip, fs2, cache2, cd2) =>
      .ok { st with
        fs := fs2, cache := cache2, createdDirs := cd2
        skippedExisting := st.skippedExisting ++ [joinSlash e.rel] }
    | (.ok, fs2, cache2, cd2) =>
      if cfg.dryRun then
        .ok { st with
          fs := fs2, cache := cache2, createdDirs := cd2
          createdFiles := st.createdFiles ++ [cfg.cwd ++ e.rel] }
      else if oracle.copyFails (configDirOf cfg ++ e.rel) then
        .error (.copyFail (configDirOf cfg ++ e.rel),
          { st with fs := fs2, cache := cache2, createdDirs := cd2 })
      else
        .ok { st with
          fs := FS.writeFile fs2 (cfg.cwd ++ e.rel) (.text e.content)
          cache := cache2, createdDirs := cd2
          createdFiles := st.createdFiles ++ [cfg.cwd ++ e.rel] }

/-- `filepath.WalkDir` over the discovered entries: a callback error
aborts the walk, keeping the state accumulated so far. -/
def walkStaging (oracle : Oracle) (cfg : RunCfg) (st : WalkSt) :
    List Entry → Except (WalkErr × WalkSt) WalkSt
  | [] => .ok st
  | e :: es =>
    match walkStep oracle cfg st e with
    | .ok st2 => walkStaging oracle cfg st2 es
    | .error r => .error r

def walkFinalSt : Except (WalkErr × WalkSt) WalkSt → WalkSt
  | .ok st => st
  | .error (_, st) => st

def isFatalWalk : Except (WalkErr × WalkSt) WalkSt → Bool
  | .ok _ => false
  | .error _ => true

/-! ## Cleanup (`cleanupStagedArtifacts`, part of cleanup.go) -/

inductive CFailure where
  | vscode
  | removeFile (p : Path)
  | removeDir (p : Path)
  | gitignore (p : Path)
  | manifest (p : Path)
  | unlock
deriving DecidableEq

structure CleanSt where
  fs : FS
  lockHeld : Bool
  failures : List CFailure
  remaining : List Path

/-- `recordRemaining`: the empty path is ignored; the set semantics of
the Go map is modeled with order-preserving dedup. -/
def recordRemainingM (rem : List Path) (p : Path) : List Path :=
  if p.isEmpty then rem
  else if rem.contains p then rem
  else rem ++ [p]

/-- `removeVSCodeSettingsIfEmpty` called with an empty map: removes the
settings file (giving up silently on error) and then its directory if
empty. -/
def removeVSCodeSettingsIfEmptyM (oracle : Oracle) (fs : FS) (p : Path) :
    FS :=
  match osRemove oracle fs p with
  | (fs2, .ok) => (removeDirIfEmptyCheckedM oracle fs2 p.dropLast).1
  | (fs2, _) => fs2

/-- The tail of `removeVSCodeExcludes`: the (possibly rewritten)
filesystem, plus the file deletion when the delete decision holds. -/
def removeVSCodeFinish (oracle : Oracle) (sp : Path) (fs2 : FS)
    (del : Bool) : FS :=
  if del then removeVSCodeSettingsIfEmptyM oracle fs2 sp else fs2

/-- `removeVSCodeExcludes` over the filesystem: a missing or unparsable
settings file is a no-op; otherwise the document-level removal runs, the
file is rewritten when changed, and deleted (with its directory) when
the delete decision holds. File-write failures are not modeled, so the
step never reports an error. -/
def removeVSCodeExcludesFS (oracle : Oracle) (fs : FS)
    (ctx : VSCodeContextM) : FS :=
  if ctx.settingsPath.isEmpty then fs
  else
    match fs.lookupFile ctx.settingsPath with
    | some (.jsonc root hasC) =>
      removeVSCodeFinish oracle ctx.settingsPath
        (if (removeVSCodeExcludesDoc ctx root hasC).2.1 then
          fs.writeFile ctx.settingsPath
            (.jsonc (removeVSCodeExcludesDoc ctx root hasC).1 hasC)
        else fs)
        (removeVSCodeExcludesDoc ctx root hasC).2.2
    | _ => fs

def cleanupVSCodeStep (oracle : Oracle) (vctx : Option VSCodeContextM)
    (st : CleanSt) : CleanSt :=
  match vctx with
  | none => st
  | some c => { st with fs := removeVSCodeExcludesFS oracle st.fs c }

/-- The `settingsCreatedPath` skip: set only when the context created
the whole settings file. -/
def skipPathOf (vctx : Option VSCodeContextM) : Option Path :=
  match vctx with
  | some c =>
    if c.settingsCreated && !c.settingsPath.isEmpty then some c.settingsPath
    else none
  | none => none

def cleanupFileOne (oracle : Oracle) (skipPath : Option Path)
    (st : CleanSt) (f : Path) : CleanSt :=
  if skipPath = some f then st
  else
    { fs := (osRemove oracle st.fs f).1
      lockHeld := st.lockHeld
      failures :=
        if (osRemove oracle st.fs f).2 = RmResult.failed then
          st.failures ++ [CFailure.removeFile f]
        else st.failures
      remaining :=
        if pathExists (osRemove oracle st.fs f).1 f then
          recordRemainingM st.remaining f
        else st.remaining }

def cleanupFilesStep (oracle : Oracle) (skipPath : Option Path)
    (createdFiles : List Path) (st : CleanSt) : CleanSt :=
  createdFiles.foldl (cleanupFileOne oracle skipPath) st

/-- `uniqueStrings`: order-preserving dedup. -/
def dedupPathsAux (seen : List Path) : List Path → List Path
  | [] => []
  | p :: ps =>
    if seen.contains p then dedupPathsAux seen ps
    else p :: dedupPathsAux (p :: seen) ps

def dedupPaths (l : List Path) : List Path := dedupPathsAux [] l

/-- The Go sort is by byte length of the path string, descending; the
model sorts by segment count, descending. Both orders place every
directory after all of its descendants, which is the property cleanup
relies on. -/
def sortByLenDesc (l : List Path) : List Path :=
  l.mergeSort (fun a b => decide (b.length ≤ a.length))

def cleanupDirOne (oracle : Oracle) (st : CleanSt) (d : Path) : CleanSt :=
  if (removeDirIfEmptyCheckedM oracle st.fs d).2.2 then
    { fs := (removeDirIfEmptyCheckedM oracle st.fs d).1
      lockHeld := st.lockHeld
      failures := st.failures ++ [CFailure.removeDir d]
      remaining := st.remaining }
  else
    { fs := (removeDirIfEmptyCheckedM oracle st.fs d).1
      lockHeld := st.lockHeld
      failures := st.failures
      remaining :=
        if !(removeDirIfEmptyCheckedM oracle st.fs d).2.1
            && pathExists (removeDirIfEmptyCheckedM oracle st.fs d).1 d then
          recordRemainingM st.remaining d
        else st.remaining }

def cleanupDirsStep (oracle : Oracle) (createdDirs : List Path)
    (st : CleanSt) : CleanSt :=
  (sortByLenDesc (dedupPaths createdDirs)).foldl (cleanupDirOne oracle) st

/-- Read a file as raw text (parsed formats are not re-serialized by the
model; they read as unusable, like a read failure). -/
def readTextFile (fs : FS) (p : Path) : Option String :=
  match fs.lookupFile p with
  | some (.text s) => some s
  | _ => none

/-- `removeGitIgnoreBlock`: missing file is a no-op; the file is only
rewritten when the stripped content differs. -/
def removeGitIgnoreBlockFS (fs : FS) (p : Path) (runID : String) : FS :=
  match readTextFile fs p with
  | none => fs
  | some s =>
    if removeGitIgnoreBlocks s runID == s then fs
    else fs.writeFile p (.text (removeGitIgnoreBlocks s runID))

def cleanupGitStep (gctx : Option GitContextM) (st : CleanSt) : CleanSt :=
  match gctx with
  | none => st
  | some g =>
    { st with fs := removeGitIgnoreBlockFS st.fs g.excludePath g.runID }

/-- The manifest is removed only when `removeManifest` is requested and
no failure and no remaining path were recorded by the earlier steps. -/
def cleanupManifestStep (oracle : Oracle) (removeManifest : Bool)
    (manifestPath : Path) (st : CleanSt) : CleanSt :=
  if removeManifest && st.failures.isEmpty && st.remaining.isEmpty then
    { fs := (osRemove oracle st.fs manifestPath).1
      lockHeld := st.lockHeld
      failures :=
        if (osRemove oracle st.fs manifestPath).2 = RmResult.failed then
          st.failures ++ [CFailure.manifest manifestPath]
        else st.failures
      remaining :=
        if pathExists (osRemove oracle st.fs manifestPath).1 manifestPath then
          recordRemainingM st.remaining manifestPath
        else st.remaining }
  else st

def cleanupUnlockStep (oracle : Oracle) (hasUnlock : Bool) (st : CleanSt) :
    CleanSt :=
  if hasUnlock then
    if oracle.unlockFails then
      { st with lockHeld := false, failures := st.failures ++ [.unlock] }
    else { st with lockHeld := false }
  else st

/-- `cleanupStagedArtifacts` (cleanup.go 107-197): VS Code reversal,
created-file removal (skipping a created settings file), created-dir
removal deepest-first, gitignore block removal, conditional manifest
removal, lock release; the second component reports whether a combined
error is returned (failures and remaining paths aggregated, never
short-circuited). -/
def cleanupStagedArtifactsM (oracle : Oracle) (manifestPath : Path)
    (createdFiles createdDirs : List Path) (vctx : Option VSCodeContextM)
    (gctx : Option GitContextM) (hasUnlock removeManifest : Bool)
    (fs : FS) (lockHeld : Bool) : CleanSt × Bool :=
  let st :=
    cleanupUnlockStep oracle hasUnlock
      (cleanupManifestStep oracle removeManifest manifestPath
        (cleanupGitStep gctx
          (cleanupDirsStep oracle createdDirs
            (cleanupFilesStep oracle (skipPathOf vctx) createdFiles
              (cleanupVSCodeStep oracle vctx
                ⟨fs, lockHeld, [], []⟩)))))
  (st, !(st.failures.isEmpty && st.remaining.isEmpty))

/-! ## `applyVSCodeExcludes` (vscode.go 266-359) -/

/-- `uniqueRelativePaths`: root-relative slash keys of the staged paths,
skipping paths outside the base tree, order-preserving dedup. -/
def uniqueRelKeysAux (cwd : Path) (seen : List String) :
    List Path → List String
  | [] => []
  | p :: ps =>
    if cwd.isPrefixOf p && !((p.drop cwd.length).isEmpty) then
      if seen.contains (joinSlash (p.drop cwd.length)) then
        uniqueRelKeysAux cwd seen ps
      else
        joinSlash (p.drop cwd.length) ::
          uniqueRelKeysAux cwd (joinSlash (p.drop cwd.length) :: seen) ps
    else uniqueRelKeysAux cwd seen ps

def uniqueRelKeys (cwd : Path) (paths : List Path) : List String :=
  uniqueRelKeysAux cwd [] paths

/-- Three-way member lookup used by `ensureObjectMember`:
found-as-object, found-but-not-an-object, absent. -/
inductive MemberLookup where
  | found : Nat → HObj → MemberLookup
  | nonObject : MemberLookup
  | absent : MemberLookup

def findMemberKind (root : HObj) (name : String) : MemberLookup :=
  match root with
  | [] => .absent
  | (n, v) :: rest =>
    if n = name then
      match v with
      | .obj o => .found 0 o
      | .prim => .nonObject
    else
      match findMemberKind rest name with
      | .found i o => .found (i + 1) o
      | .nonObject => .nonObject
      | .absent => .absent

def vscodeSettingsPath (cwd : Path) : Path :=
  cwd ++ [".vscode", "settings.json"]

/-- The fresh settings document written when none exists: only the
exclusion map, all keys true. -/
def mkExcludeDoc (keys : List String) : HObj :=
  [("files.exclude", HValue.obj (keys.map (fun k => (k, HValue.prim))))]

structure ApplyVSOut where
  fs : FS
  createdFiles : List Path
  createdDirs : List Path
  ctx : Option VSCodeContextM

/-- `applyVSCodeExcludes`: no keys → no-op; settings file absent →
create `.vscode` (old per-component `ensureDir`), write a fresh document
and record it as a created file with `settingsCreated = true`; settings
file present → patch the parsed document, adding only missing keys
(`paths` is already deduplicated, so checking against the original map
matches the Go loop over the growing map); unparsable content or a
non-object `files.exclude` → no-op. Errors surface to the caller as a
missing context (the run logs and continues). -/
def applyVSCodeExcludesFS (oracle : Oracle) (cwd : Path)
    (stagedFiles : List Path) (fs : FS)
    (createdFiles createdDirs : List Path) : ApplyVSOut :=
  if (uniqueRelKeys cwd stagedFiles).isEmpty then
    ⟨fs, createdFiles, createdDirs, none⟩
  else if !pathExists fs (vscodeSettingsPath cwd) then
    match ensureDirGo oracle false fs createdDirs [] (cwd ++ [".vscode"]) with
    | (.ok, fs2, cd2) =>
      ⟨FS.writeFile fs2 (vscodeSettingsPath cwd)
          (.jsonc (mkExcludeDoc (uniqueRelKeys cwd stagedFiles)) false),
       createdFiles ++ [vscodeSettingsPath cwd], cd2,
       some ⟨vscodeSettingsPath cwd, uniqueRelKeys cwd stagedFiles,
         true, true⟩⟩
    | (_, fs2, cd2) => ⟨fs2, createdFiles, cd2, none⟩
  else
    match fs.lookupFile (vscodeSettingsPath cwd) with
    | some (.jsonc root hasC) =>
      match findMemberKind root "files.exclude" with
      | .nonObject => ⟨fs, createdFiles, createdDirs, none⟩
      | .found i excl =>
        let addedKeys := (uniqueRelKeys cwd stagedFiles).filter
          (fun k => !(excl.map Prod.fst).contains k)
        if addedKeys.isEmpty then ⟨fs, createdFiles, createdDirs, none⟩
        else
          ⟨fs.writeFile (vscodeSettingsPath cwd)
              (.jsonc (root.set i ("files.exclude",
                HValue.obj (excl ++ addedKeys.map (fun k => (k, HValue.prim)))))
                hasC),
           createdFiles, createdDirs,
           some ⟨vscodeSettingsPath cwd, addedKeys, false, false⟩⟩
      | .absent =>
        ⟨fs.writeFile (vscodeSettingsPath cwd)
            (.jsonc (root ++ [("files.exclude",
              HValue.obj ((uniqueRelKeys cwd stagedFiles).map
                (fun k => (k, HValue.prim))))]) hasC),
         createdFiles, createdDirs,
         some ⟨vscodeSettingsPath cwd, uniqueRelKeys cwd stagedFiles,
           true, false⟩⟩
    | _ => ⟨fs, createdFiles, createdDirs, none⟩

/-! ## Gitignore integration inside the run (main.go 1060-1093) -/

def isSpaceChar (c : Char) : Bool :=
  c == ' ' || c == '\t' || c == '\n' || c == '\r'

def goTrimSpace (s : String) : String :=
  String.mk (((s.data.dropWhile isSpaceChar).reverse.dropWhile
    isSpaceChar).reverse)

/-- Lexical path cleaning applied by `filepath.Abs`: drops empty and `.`
segments and resolves `..`. -/
def normSegs (segs : List String) : Path :=
  segs.foldl
    (fun acc seg =>
      if seg == "" || seg == "." then acc
      else if seg == ".." then acc.dropLast
      else acc ++ [seg])
    []

def findGitRoot (fs : FS) (start : Path) : Option Path :=
  if pathExists fs (start ++ [".git"]) then some start
  else if _h : start = [] then none
  else findGitRoot fs start.dropLast
termination_by start.length
decreasing_by
  simp only [List.length_dropLast]
  have := List.length_pos.mpr _h
  omega

/-- `resolveGitDir`: a `.git` directory resolves to itself; a `.git`
file must hold `gitdir: <path>` which is joined onto the git root and
cleaned. -/
def resolveGitDirM (fs : FS) (gitRoot : Path) : Option Path :=
  if fs.isDir (gitRoot ++ [".git"]) then some (gitRoot ++ [".git"])
  else
    match fs.lookupFile (gitRoot ++ [".git"]) with
    | some (.text content) =>
      if strStartsWith (goTrimSpace content) "gitdir:" then
        some (normSegs (gitRoot ++
          splitCh '/' (goTrimSpace
            (String.mk ((goTrimSpace content).data.drop 7)))))
      else none
    | _ => none

/-- The run's gitignore step: locate the git dir, compute the staged
files' root-relative keys (leading `/` added), and append the tagged
block via `appendGitIgnoreBlock` (directory creation, idempotence check,
append). Any failure leaves the context empty. -/
def gitStepM (cfg : RunCfg) (st : WalkSt) : WalkSt × Option GitContextM :=
  match findGitRoot st.fs cfg.cwd with
  | none => (st, none)
  | some gitRoot =>
    match resolveGitDirM st.fs gitRoot with
    | none => (st, none)
    | some gitDir =>
      let relPaths := st.createdFiles.filterMap (fun f =>
        if gitRoot.isPrefixOf f then
          some ("/" ++ joinSlash (f.drop gitRoot.length))
        else none)
      if relPaths.isEmpty then (st, none)
      else
        match mkdirAll st.fs (gitDir ++ ["info"]) with
        | none => (st, none)
        | some fs2 =>
          ({ st with
            fs := FS.writeFile fs2 (gitDir ++ ["info", "exclude"])
              (.text (appendGitIgnoreBlockContent
                (readTextFile fs2 (gitDir ++ ["info", "exclude"]))
                cfg.runID relPaths)) },
           some ⟨gitRoot, gitDir, gitDir ++ ["info", "exclude"], cfg.runID⟩)

/-! ## The run model (main.go `run`, from after lock acquisition) -/

/-- `toRelativeList`: paths under the base become relative segment
lists; others are dropped (Go renders `..`-relative strings instead;
the manifest record is not read back by any modeled operation). -/
def toRelativeListM (base : Path) (values : List Path) : List Path :=
  values.filterMap (fun v =>
    if base.isPrefixOf v then some (v.drop base.length) else none)

inductive RunOut where
  | fatal : WalkErr → CleanSt → RunOut
  | dryDone : WalkSt → Bool → RunOut
  | ready : WalkSt → Option VSCodeContextM → Option GitContextM → RunOut

/-- `run` (main.go 993-1122), from the staging walk to either the fatal
path (walk error → `combineErrors(walkErr, cleanupStagedArtifacts(...))`
with no vscode/git context yet, unlock and manifest removal requested),
the dry-run exit (lock released, nothing persisted), or the staged state
handed to the guarded command (`ready`; the command execution and the
final cleanup call are outside this fragment). -/
def runStaging (oracle : Oracle) (cfg : RunCfg) (entries : List Entry)
    (fs0 : FS) : RunOut :=
  match walkStaging oracle cfg ⟨fs0, [], [], [], [], [], []⟩ entries with
  | .error (we, st) =>
    .fatal we
      (cleanupStagedArtifactsM oracle (manifestPathOf cfg) st.createdFiles
        st.createdDirs none none true true st.fs true).1
  | .ok st =>
    let a :=
      if !cfg.dryRun && cfg.vscodeExclude && !st.createdFiles.isEmpty then
        applyVSCodeExcludesFS oracle cfg.cwd st.createdFiles st.fs
          st.createdFiles st.createdDirs
      else ⟨st.fs, st.createdFiles, st.createdDirs, none⟩
    let st2 : WalkSt := { st with
      fs := a.fs
      createdFiles := a.createdFiles
      createdDirs := a.createdDirs }
    let g :=
      if !cfg.dryRun && cfg.useGitignore && !st2.createdFiles.isEmpty then
        gitStepM cfg st2
      else (st2, none)
    let st4 :=
      if !cfg.dryRun && !(g.1).createdFiles.isEmpty then
        { g.1 with
          fs := FS.writeFile (g.1).fs (manifestPathOf cfg)
            (.manifest ⟨cfg.runID, toRelativeListM cfg.cwd (g.1).createdFiles,
              toRelativeListM cfg.cwd (g.1).createdDirs, g.2, a.ctx⟩) }
      else g.1
    if cfg.dryRun then .dryDone st4 false
    else .ready st4 a.ctx g.2

def RunOut.fsOf : RunOut → FS
  | .fatal _ c => c.fs
  | .dryDone s _ => s.fs
  | .ready s _ _ => s.fs

def RunOut.lockOf : RunOut → Bool
  | .fatal _ c => c.lockHeld
  | .dryDone _ l => l
  | .ready _ _ _ => true

def RunOut.isFatal : RunOut → Bool
  | .fatal _ _ => true
  | _ => false

def RunOut.isDryDone : RunOut → Bool
  | .dryDone _ _ => true
  | _ => false

/-! ## Lemmas about the filesystem primitives -/

theorem find?_filter_ne {l : List (Path × FileData)} {p q : Path}
    (h : ¬ q = p) :
    (l.filter (fun e => !(e.1 == p))).find? (fun e => e.1 == q)
      = l.find? (fun e => e.1 == q) := by
  induction l with
  | nil => rfl
  | cons e rest ih =>
    by_cases he : e.1 = q
    · have h1 : (e.1 == q) = true := by simpa using he
      have h2 : (e.1 == p) = false := by
        simpa using fun hh => h (he ▸ hh : q = p)
      simp [List.filter_cons, h2, List.find?_cons, h1]
    · have h1 : (e.1 == q) = false := by simpa using he
      by_cases hp : e.1 = p
      · have h2 : (e.1 == p) = true := by simpa using hp
        simp [List.filter_cons, h2, List.find?_cons, h1, ih]
      · have h2 : (e.1 == p) = false := by simpa using hp
        simp [List.filter_cons, h2, List.find?_cons, h1, ih]

theorem find?_filter_self {l : List (Path × FileData)} (p : Path) :
    (l.filter (fun e => !(e.1 == p))).find? (fun e => e.1 == p) = none := by
  induction l with
  | nil => rfl
  | cons e rest ih =>
    by_cases hp : e.1 = p
    · have h2 : (e.1 == p) = true := by simpa using hp
      simp [List.filter_cons, h2, ih]
    · have h2 : (e.1 == p) = false := by simpa using hp
      simp [List.filter_cons, h2, List.find?_cons, ih]

theorem lookup_writeFile_self (fs : FS) (p : Path) (d : FileData) :
    (fs.writeFile p d).lookupFile p = some d := by
  simp [FS.writeFile, FS.lookupFile, List.find?_cons]

theorem lookup_writeFile_ne {p q : Path} (fs : FS) (d : FileData)
    (h : ¬ q = p) :
    (fs.writeFile p d).lookupFile q = fs.lookupFile q := by
  have h1 : (p == q) = false := by
    simpa using fun hh => h (hh.symm : q = p)
  simp [FS.writeFile, FS.lookupFile, List.find?_cons, h1, find?_filter_ne h]

theorem lookup_removeFileEntry_self (fs : FS) (p : Path) :
    (fs.removeFileEntry p).lookupFile p = none := by
  simp [FS.removeFileEntry, FS.lookupFile, find?_filter_self]

theorem lookup_removeFileEntry_ne {p q : Path} (fs : FS) (h : ¬ q = p) :
    (fs.removeFileEntry p).lookupFile q = fs.lookupFile q := by
  simp [FS.removeFileEntry, FS.lookupFile, find?_filter_ne h]

theorem lookup_removeDirEntry (fs : FS) (p q : Path) :
    (fs.removeDirEntry p).lookupFile q = fs.lookupFile q := rfl

theorem hasFile_removeDirEntry (fs : FS) (p q : Path) :
    (fs.removeDirEntry p).hasFile q = fs.hasFile q := rfl

theorem mkdirAll_files {fs fs2 : FS} {p : Path}
    (h : mkdirAll fs p = some fs2) : fs2.files = fs.files := by
  unfold mkdirAll at h
  split at h
  · exact absurd h (by simp)
  · cases h
    rfl

theorem mkdirAll_lookup {fs fs2 : FS} {p : Path}
    (h : mkdirAll fs p = some fs2) (q : Path) :
    fs2.lookupFile q = fs.lookupFile q := by
  simp [FS.lookupFile, mkdirAll_files h]

theorem osRemove_lookup_ne {p q : Path} (oracle : Oracle) (fs : FS)
    (h : ¬ q = p) :
    (osRemove oracle fs p).1.lookupFile q = fs.lookupFile q := by
  unfold osRemove
  split
  · rfl
  · split
    · exact lookup_removeFileEntry_ne fs h
    · split
      · split
        · exact lookup_removeDirEntry fs p q
        · rfl
      · rfl

theorem osRemove_hasFile_mono {p q : Path} {oracle : Oracle} {fs : FS}
    (h : (osRemove oracle fs p).1.hasFile q = true) :
    fs.hasFile q = true := by
  by_cases hq : q = p
  · subst hq
    unfold osRemove at h
    split at h
    · exact h
    · split at h
      · assumption
      · split at h
        · split at h
          · rw [hasFile_removeDirEntry] at h
            exact h
          · exact h
        · exact h
  · rwa [FS.hasFile, osRemove_lookup_ne oracle fs hq] at h

theorem osRemove_removes {p : Path} (oracle : Oracle) (fs : FS)
    (hden : oracle.removeDenied p = false) :
    (osRemove oracle fs p).1.hasFile p = false := by
  unfold osRemove
  rw [hden]
  simp only [Bool.false_eq_true, if_false]
  split
  · simp [FS.hasFile, lookup_removeFileEntry_self]
  · rename_i hnf
    have hnf2 : fs.hasFile p = false := by simpa using hnf
    split
    · split
      · rwa [hasFile_removeDirEntry]
      · exact hnf2
    · exact hnf2

theorem removeDirIfEmptyCheckedM_files (oracle : Oracle) (fs : FS)
    (p : Path) : ((removeDirIfEmptyCheckedM oracle fs p).1).files = fs.files := by
  unfold removeDirIfEmptyCheckedM
  split
  · split
    · rfl
    · split
      · rfl
      · rfl
  · split
    · rfl
    · rfl

theorem hasFile_congr_files {fs fs2 : FS} (h : fs2.files = fs.files)
    (q : Path) : fs2.hasFile q = fs.hasFile q := by
  simp [FS.hasFile, FS.lookupFile, h]

theorem hasFile_writeFile_cases {fs : FS} {p q : Path} {d : FileData}
    (h : (fs.writeFile p d).hasFile q = true) :
    q = p ∨ fs.hasFile q = true := by
  by_cases hq : q = p
  · exact Or.inl hq
  · right
    rwa [FS.hasFile, lookup_writeFile_ne fs d hq] at h

/-! ## Lemmas about `ensureDirWithCacheM` -/

theorem ensure_files_eq (oracle : Oracle) (d : Bool) (fs : FS)
    (c cd : List Path) (p : Path) :
    ((ensureDirWithCacheM oracle d fs c cd p).2.1).files = fs.files := by
  unfold ensureDirWithCacheM
  repeat' split
  any_goals rfl
  rename_i fs2 heq
  exact mkdirAll_files heq

theorem ensure_dry_fs (oracle : Oracle) (fs : FS) (c cd : List Path)
    (p : Path) :
    (ensureDirWithCacheM oracle true fs c cd p).2.1 = fs := by
  unfold ensureDirWithCacheM
  repeat' split
  any_goals rfl
  all_goals simp_all

theorem ensure_dry_no_err (oracle : Oracle) (fs : FS) (c cd : List Path)
    (p : Path) (hstat : ∀ q, oracle.statFails q = false) :
    (ensureDirWithCacheM oracle true fs c cd p).1 ≠ EnsureRes.err := by
  unfold ensureDirWithCacheM
  repeat' split
  all_goals simp_all [hstat p]

/-! ## Tracking invariants of the staging walk -/

/-- `st1` extends `st0`: every file present in `st1` was either present
in `st0` or recorded as created, and the created list only grows. -/
def TracksFrom (st0 st1 : WalkSt) : Prop :=
  (∀ q, st1.fs.hasFile q = true →
    st0.fs.hasFile q = true ∨ q ∈ st1.createdFiles)
  ∧ (∀ q, q ∈ st0.createdFiles → q ∈ st1.createdFiles)

theorem tracksFrom_self (st : WalkSt) : TracksFrom st st :=
  ⟨fun _ h => Or.inl h, fun _ h => h⟩

theorem tracksFrom_trans {st0 st1 st2 : WalkSt} (h01 : TracksFrom st0 st1)
    (h12 : TracksFrom st1 st2) : TracksFrom st0 st2 := by
  refine ⟨fun q h => ?_, fun q h => h12.2 q (h01.2 q h)⟩
  rcases h12.1 q h with h1 | h1
  · rcases h01.1 q h1 with h0 | h0
    · exact Or.inl h0
    · exact Or.inr (h12.2 q h0)
  · exact Or.inr h1

theorem tracksFrom_of_eqs {st st' : WalkSt} (hf : st'.fs.files = st.fs.files)
    (hc : ∀ q, q ∈ st.createdFiles → q ∈ st'.createdFiles) :
    TracksFrom st st' :=
  ⟨fun q h => Or.inl (by rwa [hasFile_congr_files hf] at h), hc⟩

theorem walkStep_tracks (oracle : Oracle) (cfg : RunCfg) (st : WalkSt)
    (e : Entry) : TracksFrom st (walkFinalSt (walkStep oracle cfg st e)) := by
  unfold walkStep
  by_cases h1 : (joinSlash e.rel == configFilename
      || joinSlash e.rel == manifestFilename
      || joinSlash e.rel == lockFilename) = true
  · rw [if_pos h1]
    exact tracksFrom_self st
  · rw [if_neg h1]
    by_cases h2 : cfg.excludeMatch e.rel = true
    · rw [if_pos h2]
      exact tracksFrom_of_eqs rfl (fun q h => h)
    · rw [if_neg h2]
      by_cases h3 : (cfg.useRegistry && cfg.registryMatch e.rel
          && !cfg.overrideMatch e.rel) = true
      · rw [if_pos h3]
        exact tracksFrom_of_eqs rfl (fun q h => h)
      · rw [if_neg h3]
        by_cases h4 : pathExists st.fs (cfg.cwd ++ e.rel) = true
        · rw [if_pos h4]
          exact tracksFrom_of_eqs rfl (fun q h => h)
        · rw [if_neg h4]
          rcases heqall : ensureDirWithCacheM oracle cfg.dryRun st.fs st.cache
              st.createdDirs (cfg.cwd ++ e.rel).dropLast with
            ⟨res, fs2, cache2, cd2⟩
          have hfe : fs2.files = st.fs.files := by
            have hx := ensure_files_eq oracle cfg.dryRun st.fs st.cache
              st.createdDirs (cfg.cwd ++ e.rel).dropLast
            rw [heqall] at hx
            exact hx
          cases res with
          | err => exact tracksFrom_self st
          | skip => exact tracksFrom_of_eqs hfe (fun q h => h)
          | ok =>
            by_cases hdry : cfg.dryRun = true
            · rw [hdry]
              exact tracksFrom_of_eqs hfe
                (fun q h => List.mem_append_left _ h)
            · have hdry2 : cfg.dryRun = false := by simpa using hdry
              rw [hdry2]
              by_cases hcopy :
                  oracle.copyFails (configDirOf cfg ++ e.rel) = true
              · rw [hcopy]
                exact tracksFrom_of_eqs hfe (fun q h => h)
              · have hcopy2 :
                    oracle.copyFails (configDirOf cfg ++ e.rel) = false := by
                  simpa using hcopy
                rw [hcopy2]
                refine ⟨fun q h => ?_, fun q h =>
                  List.mem_append_left _ h⟩
                rcases hasFile_writeFile_cases h with hq | hq
                · subst hq
                  exact Or.inr
                    (show cfg.cwd ++ e.rel ∈
                        st.createdFiles ++ [cfg.cwd ++ e.rel] from
                      List.mem_append_right _ (List.mem_singleton_self _))
                · rw [hasFile_congr_files hfe] at hq
                  exact Or.inl hq

theorem walkStaging_tracks (oracle : Oracle) (cfg : RunCfg) (st : WalkSt)
    (es : List Entry) :
    TracksFrom st (walkFinalSt (walkStaging oracle cfg st es)) := by
  induction es generalizing st with
  | nil => exact tracksFrom_self st
  | cons e es ih =>
    show TracksFrom st (walkFinalSt
      (match walkStep oracle cfg st e with
        | .ok st2 => walkStaging oracle cfg st2 es
        | .error r => .error r))
    cases hstep : walkStep oracle cfg st e with
    | ok st2 =>
      have h1 : TracksFrom st st2 := by
        have := walkStep_tracks oracle cfg st e
        rw [hstep] at this
        exact this
      exact tracksFrom_trans h1 (ih st2)
    | error r =>
      have := walkStep_tracks oracle cfg st e
      rw [hstep] at this
      exact this

/-! ## Lemmas about the cleanup steps -/

theorem lookup_congr_files {fs fs2 : FS} (h : fs2.files = fs.files)
    (q : Path) : fs2.lookupFile q = fs.lookupFile q := by
  simp [FS.lookupFile, h]

theorem cleanupFileOne_hasFile_mono {oracle : Oracle} {sp : Option Path}
    {st : CleanSt} {f q : Path}
    (h : (cleanupFileOne oracle sp st f).fs.hasFile q = true) :
    st.fs.hasFile q = true := by
  unfold cleanupFileOne at h
  split at h
  · exact h
  · exact osRemove_hasFile_mono h

theorem cleanupFileOne_lookup_ne {oracle : Oracle} {sp : Option Path}
    {st : CleanSt} {f q : Path} (h : ¬ q = f) :
    (cleanupFileOne oracle sp st f).fs.lookupFile q = st.fs.lookupFile q := by
  unfold cleanupFileOne
  split
  · rfl
  · exact osRemove_lookup_ne oracle st.fs h

theorem cleanupFileOne_removes {oracle : Oracle} {sp : Option Path}
    {st : CleanSt} {f : Path} (hden : oracle.removeDenied f = false)
    (hsk : sp ≠ some f) :
    (cleanupFileOne oracle sp st f).fs.hasFile f = false := by
  unfold cleanupFileOne
  split
  · exact absurd (by assumption) hsk
  · exact osRemove_removes oracle st.fs hden

theorem cleanupFileOne_failures_mono {oracle : Oracle} {sp : Option Path}
    {st : CleanSt} {f : Path} {x : CFailure} (h : x ∈ st.failures) :
    x ∈ (cleanupFileOne oracle sp st f).failures := by
  unfold cleanupFileOne
  split
  · exact h
  · show x ∈ (if (osRemove oracle st.fs f).2 = RmResult.failed then
        st.failures ++ [CFailure.removeFile f] else st.failures)
    split
    · exact List.mem_append_left _ h
    · exact h

theorem cleanupFileOne_records {oracle : Oracle} {sp : Option Path}
    {st : CleanSt} {f : Path} (hden : oracle.removeDenied f = true)
    (hsk : sp ≠ some f) :
    CFailure.removeFile f ∈ (cleanupFileOne oracle sp st f).failures := by
  have hr : osRemove oracle st.fs f = (st.fs, RmResult.failed) := by
    unfold osRemove
    rw [hden]
    rfl
  unfold cleanupFileOne
  split
  · exact absurd (by assumption) hsk
  · show CFailure.removeFile f ∈
        (if (osRemove oracle st.fs f).2 = RmResult.failed then
          st.failures ++ [CFailure.removeFile f] else st.failures)
    rw [hr]
    simp

theorem cleanupFileOne_lock {oracle : Oracle} {sp : Option Path}
    {st : CleanSt} {f : Path} :
    (cleanupFileOne oracle sp st f).lockHeld = st.lockHeld := by
  unfold cleanupFileOne
  split
  · rfl
  · rfl

theorem cleanupFilesStep_hasFile_mono {oracle : Oracle} {sp : Option Path}
    {files : List Path} {st : CleanSt} {q : Path}
    (h : (cleanupFilesStep oracle sp files st).fs.hasFile q = true) :
    st.fs.hasFile q = true := by
  induction files generalizing st with
  | nil => exact h
  | cons f fs ih =>
    exact cleanupFileOne_hasFile_mono (ih h)

theorem cleanupFilesStep_removes {oracle : Oracle} {sp : Option Path}
    {files : List Path} {st : CleanSt} {f : Path}
    (hden : ∀ p, oracle.removeDenied p = false) (hf : f ∈ files)
    (hsk : sp ≠ some f) :
    (cleanupFilesStep oracle sp files st).fs.hasFile f = false := by
  induction files generalizing st with
  | nil => exact absurd hf (by simp)
  | cons g gs ih =>
    rcases List.mem_cons.mp hf with hfg | hftl
    · subst hfg
      cases hfin : (cleanupFilesStep oracle sp (f :: gs) st).fs.hasFile f with
      | false => rfl
      | true =>
        have h1 : (cleanupFileOne oracle sp st f).fs.hasFile f = true :=
          cleanupFilesStep_hasFile_mono hfin
        rw [cleanupFileOne_removes (hden f) hsk] at h1
        exact absurd h1 (by simp)
    · exact ih hftl

theorem cleanupFilesStep_lookup_notin {oracle : Oracle} {sp : Option Path}
    {files : List Path} {st : CleanSt} {q : Path} (hq : q ∉ files) :
    (cleanupFilesStep oracle sp files st).fs.lookupFile q
      = st.fs.lookupFile q := by
  induction files generalizing st with
  | nil => rfl
  | cons f fs ih =>
    have hqf : ¬ q = f := fun hh => hq (by simp [hh])
    rw [cleanupFilesStep, List.foldl_cons]
    rw [show List.foldl (cleanupFileOne oracle sp)
        (cleanupFileOne oracle sp st f) fs
      = cleanupFilesStep oracle sp fs (cleanupFileOne oracle sp st f)
      from rfl]
    rw [ih (fun hh => hq (by simp [hh])), cleanupFileOne_lookup_ne hqf]

theorem cleanupFilesStep_skip_lookup {oracle : Oracle}
    {files : List Path} {st : CleanSt} {p : Path} :
    (cleanupFilesStep oracle (some p) files st).fs.lookupFile p
      = st.fs.lookupFile p := by
  induction files generalizing st with
  | nil => rfl
  | cons f fs ih =>
    rw [cleanupFilesStep, List.foldl_cons]
    rw [show List.foldl (cleanupFileOne oracle (some p))
        (cleanupFileOne oracle (some p) st f) fs
      = cleanupFilesStep oracle (some p) fs
          (cleanupFileOne oracle (some p) st f) from rfl]
    rw [ih]
    by_cases hpf : p = f
    · subst hpf
      rw [show cleanupFileOne oracle (some p) st p = st from by
        unfold cleanupFileOne
        rw [if_pos rfl]]
    · exact cleanupFileOne_lookup_ne hpf

theorem cleanupFilesStep_failures_mono {oracle : Oracle} {sp : Option Path}
    {files : List Path} {st : CleanSt} {x : CFailure}
    (h : x ∈ st.failures) :
    x ∈ (cleanupFilesStep oracle sp files st).failures := by
  induction files generalizing st with
  | nil => exact h
  | cons f fs ih => exact ih (cleanupFileOne_failures_mono h)

theorem cleanupFilesStep_records {oracle : Oracle} {sp : Option Path}
    {files : List Path} {st : CleanSt} {f : Path}
    (hf : f ∈ files) (hden : oracle.removeDenied f = true)
    (hsk : sp ≠ some f) :
    CFailure.removeFile f ∈ (cleanupFilesStep oracle sp files st).failures := by
  induction files generalizing st with
  | nil => exact absurd hf (by simp)
  | cons g gs ih =>
    rcases List.mem_cons.mp hf with hfg | hftl
    · subst hfg
      rw [cleanupFilesStep, List.foldl_cons]
      exact cleanupFilesStep_failures_mono
        (cleanupFileOne_records hden hsk)
    · exact ih hftl

theorem cleanupFilesStep_lock {oracle : Oracle} {sp : Option Path}
    {files : List Path} {st : CleanSt} :
    (cleanupFilesStep oracle sp files st).lockHeld = st.lockHeld := by
  induction files generalizing st with
  | nil => rfl
  | cons f fs ih => rw [cleanupFilesStep, List.foldl_cons]
                    exact (ih).trans cleanupFileOne_lock

theorem cleanupDirOne_files {oracle : Oracle} {st : CleanSt} {d : Path} :
    (cleanupDirOne oracle st d).fs.files = st.fs.files := by
  unfold cleanupDirOne
  split
  · exact removeDirIfEmptyCheckedM_files oracle st.fs d
  · exact removeDirIfEmptyCheckedM_files oracle st.fs d

theorem cleanupDirOne_failures_mono {oracle : Oracle} {st : CleanSt}
    {d : Path} {x : CFailure} (h : x ∈ st.failures) :
    x ∈ (cleanupDirOne oracle st d).failures := by
  unfold cleanupDirOne
  split
  · exact List.mem_append_left _ h
  · exact h

theorem cleanupDirOne_lock {oracle : Oracle} {st : CleanSt} {d : Path} :
    (cleanupDirOne oracle st d).lockHeld = st.lockHeld := by
  unfold cleanupDirOne
  split
  · rfl
  · rfl

theorem cleanupDirsFold_files {oracle : Oracle} {ds : List Path}
    {st : CleanSt} :
    (ds.foldl (cleanupDirOne oracle) st).fs.files = st.fs.files := by
  induction ds generalizing st with
  | nil => rfl
  | cons d ds ih =>
    rw [List.foldl_cons]
    exact (ih).trans cleanupDirOne_files

theorem cleanupDirsStep_files {oracle : Oracle} {dirs : List Path}
    {st : CleanSt} :
    (cleanupDirsStep oracle dirs st).fs.files = st.fs.files :=
  cleanupDirsFold_files

theorem cleanupDirsStep_failures_mono {oracle : Oracle} {dirs : List Path}
    {st : CleanSt} {x : CFailure} (h : x ∈ st.failures) :
    x ∈ (cleanupDirsStep oracle dirs st).failures := by
  unfold cleanupDirsStep
  generalize sortByLenDesc (dedupPaths dirs) = ds
  induction ds generalizing st with
  | nil => exact h
  | cons d ds ih =>
    rw [List.foldl_cons]
    exact ih (cleanupDirOne_failures_mono h)

theorem cleanupDirsStep_lock {oracle : Oracle} {dirs : List Path}
    {st : CleanSt} :
    (cleanupDirsStep oracle dirs st).lockHeld = st.lockHeld := by
  unfold cleanupDirsStep
  generalize sortByLenDesc (dedupPaths dirs) = ds
  induction ds generalizing st with
  | nil => rfl
  | cons d ds ih =>
    rw [List.foldl_cons]
    exact (ih).trans cleanupDirOne_lock

theorem cleanupManifestStep_hasFile_mono {oracle : Oracle} {rm : Bool}
    {mp : Path} {st : CleanSt} {q : Path}
    (h : (cleanupManifestStep oracle rm mp st).fs.hasFile q = true) :
    st.fs.hasFile q = true := by
  unfold cleanupManifestStep at h
  split at h
  · exact osRemove_hasFile_mono h
  · exact h

theorem cleanupManifestStep_gate_off {oracle : Oracle} {rm : Bool}
    {mp : Path} {st : CleanSt}
    (h : (rm && st.failures.isEmpty && st.remaining.isEmpty) = false) :
    cleanupManifestStep oracle rm mp st = st := by
  unfold cleanupManifestStep
  rw [h]
  rfl

theorem cleanupManifestStep_removes {oracle : Oracle} {mp : Path}
    {st : CleanSt}
    (hgate : (true && st.failures.isEmpty && st.remaining.isEmpty) = true)
    (hden : oracle.removeDenied mp = false) :
    (cleanupManifestStep oracle true mp st).fs.hasFile mp = false := by
  unfold cleanupManifestStep
  rw [hgate]
  exact osRemove_removes oracle st.fs hden

theorem cleanupManifestStep_lock {oracle : Oracle} {rm : Bool} {mp : Path}
    {st : CleanSt} :
    (cleanupManifestStep oracle rm mp st).lockHeld = st.lockHeld := by
  unfold cleanupManifestStep
  split
  · rfl
  · rfl

theorem cleanupManifestStep_failures_mono {oracle : Oracle} {rm : Bool}
    {mp : Path} {st : CleanSt} {x : CFailure} (h : x ∈ st.failures) :
    x ∈ (cleanupManifestStep oracle rm mp st).failures := by
  unfold cleanupManifestStep
  split
  · show x ∈ (if (osRemove oracle st.fs mp).2 = RmResult.failed then
        st.failures ++ [CFailure.manifest mp] else st.failures)
    split
    · exact List.mem_append_left _ h
    · exact h
  · exact h

theorem cleanupUnlockStep_fs (oracle : Oracle) (hu : Bool) (st : CleanSt) :
    (cleanupUnlockStep oracle hu st).fs = st.fs := by
  unfold cleanupUnlockStep
  split
  · split
    · rfl
    · rfl
  · rfl

theorem cleanupUnlockStep_lock (oracle : Oracle) (st : CleanSt) :
    (cleanupUnlockStep oracle true st).lockHeld = false := by
  unfold cleanupUnlockStep
  split
  · split
    · rfl
    · rfl
  · rename_i hc
    exact absurd rfl hc

theorem cleanupUnlockStep_failures_mono {oracle : Oracle} {hu : Bool}
    {st : CleanSt} {x : CFailure} (h : x ∈ st.failures) :
    x ∈ (cleanupUnlockStep oracle hu st).failures := by
  unfold cleanupUnlockStep
  split
  · split
    · exact List.mem_append_left _ h
    · exact h
  · exact h

theorem removeVSCodeSettingsIfEmptyM_lookup_ne {oracle : Oracle} {fs : FS}
    {p q : Path} (h : ¬ q = p) :
    (removeVSCodeSettingsIfEmptyM oracle fs p).lookupFile q
      = fs.lookupFile q := by
  unfold removeVSCodeSettingsIfEmptyM
  rcases hos : osRemove oracle fs p with ⟨fs2, r⟩
  have h2 : fs2.lookupFile q = fs.lookupFile q := by
    have := osRemove_lookup_ne oracle fs h (p := p)
    rw [hos] at this
    exact this
  cases r with
  | ok =>
    rw [show (removeDirIfEmptyCheckedM oracle fs2 p.dropLast).1.lookupFile q
        = fs2.lookupFile q from
      lookup_congr_files (removeDirIfEmptyCheckedM_files oracle fs2 _) q]
    exact h2
  | notExist => exact h2
  | failed => exact h2

theorem removeVSCodeFinish_lookup_ne {oracle : Oracle} {sp q : Path}
    {fs2 : FS} {del : Bool} (h : ¬ q = sp) :
    (removeVSCodeFinish oracle sp fs2 del).lookupFile q
      = fs2.lookupFile q := by
  unfold removeVSCodeFinish
  split
  · exact removeVSCodeSettingsIfEmptyM_lookup_ne h
  · rfl

theorem removeVSCodeExcludesFS_lookup_ne {oracle : Oracle} {fs : FS}
    {ctx : VSCodeContextM} {q : Path} (h : ¬ q = ctx.settingsPath) :
    (removeVSCodeExcludesFS oracle fs ctx).lookupFile q
      = fs.lookupFile q := by
  unfold removeVSCodeExcludesFS
  split
  · rfl
  · split
    · rw [removeVSCodeFinish_lookup_ne h]
      split
      · exact lookup_writeFile_ne fs _ h
      · rfl
    · rfl

theorem cleanupVSCodeStep_lookup_ne {oracle : Oracle}
    {vctx : Option VSCodeContextM} {st : CleanSt} {q : Path}
    (h : ∀ c, vctx = some c → ¬ q = c.settingsPath) :
    (cleanupVSCodeStep oracle vctx st).fs.lookupFile q
      = st.fs.lookupFile q := by
  unfold cleanupVSCodeStep
  cases vctx with
  | none => rfl
  | some c => exact removeVSCodeExcludesFS_lookup_ne (h c rfl)

theorem cleanupVSCodeStep_failures (oracle : Oracle)
    (vctx : Option VSCodeContextM) (st : CleanSt) :
    (cleanupVSCodeStep oracle vctx st).failures = st.failures := by
  unfold cleanupVSCodeStep
  cases vctx with
  | none => rfl
  | some c => rfl

theorem cleanupVSCodeStep_remaining (oracle : Oracle)
    (vctx : Option VSCodeContextM) (st : CleanSt) :
    (cleanupVSCodeStep oracle vctx st).remaining = st.remaining := by
  unfold cleanupVSCodeStep
  cases vctx with
  | none => rfl
  | some c => rfl

theorem removeGitIgnoreBlockFS_lookup_ne {fs : FS} {p q : Path}
    {runID : String} (h : ¬ q = p) :
    (removeGitIgnoreBlockFS fs p runID).lookupFile q = fs.lookupFile q := by
  unfold removeGitIgnoreBlockFS
  cases hrt : readTextFile fs p with
  | none => rfl
  | some s =>
    show (if (removeGitIgnoreBlocks s runID == s) = true then fs
        else fs.writeFile p (FileData.text (removeGitIgnoreBlocks s runID))).lookupFile q
      = fs.lookupFile q
    by_cases he : (removeGitIgnoreBlocks s runID == s) = true
    · rw [if_pos he]
    · rw [if_neg he]
      exact lookup_writeFile_ne fs _ h

theorem cleanupGitStep_lookup_ne {gctx : Option GitContextM} {st : CleanSt}
    {q : Path} (h : ∀ g, gctx = some g → ¬ q = g.excludePath) :
    (cleanupGitStep gctx st).fs.lookupFile q = st.fs.lookupFile q := by
  unfold cleanupGitStep
  cases gctx with
  | none => rfl
  | some g => exact removeGitIgnoreBlockFS_lookup_ne (h g rfl)

theorem cleanupGitStep_failures (gctx : Option GitContextM) (st : CleanSt) :
    (cleanupGitStep gctx st).failures = st.failures := by
  unfold cleanupGitStep
  cases gctx with
  | none => rfl
  | some g => rfl

theorem cleanupGitStep_remaining (gctx : Option GitContextM)
    (st : CleanSt) :
    (cleanupGitStep gctx st).remaining = st.remaining := by
  unfold cleanupGitStep
  cases gctx with
  | none => rfl
  | some g => rfl

theorem cleanupGitStep_lock (gctx : Option GitContextM) (st : CleanSt) :
    (cleanupGitStep gctx st).lockHeld = st.lockHeld := by
  unfold cleanupGitStep
  cases gctx with
  | none => rfl
  | some g => rfl

/-- Core rollback property of the fatal-abort cleanup call (no vscode or
git context yet): every created file is gone, the lock is released, and
any file still present was present before cleanup and was not among the
created files. -/
theorem cleanup_rollback_core (oracle : Oracle) (mp : Path)
    (created dirs : List Path) (fs : FS) (lock : Bool)
    (hden : ∀ p, oracle.removeDenied p = false) :
    (∀ f ∈ created,
      ((cleanupStagedArtifactsM oracle mp created dirs none none true true
        fs lock).1).fs.hasFile f = false)
    ∧ ((cleanupStagedArtifactsM oracle mp created dirs none none true true
        fs lock).1).lockHeld = false
    ∧ (∀ q,
        ((cleanupStagedArtifactsM oracle mp created dirs none none true true
          fs lock).1).fs.hasFile q = true →
        fs.hasFile q = true ∧ q ∉ created) := by
  have hshape :
      (cleanupStagedArtifactsM oracle mp created dirs none none true true
        fs lock).1
      = cleanupUnlockStep oracle true
          (cleanupManifestStep oracle true mp
            (cleanupDirsStep oracle dirs
              (cleanupFilesStep oracle none created
                ⟨fs, lock, [], []⟩))) := rfl
  rw [hshape]
  have hdf : ∀ q, (cleanupDirsStep oracle dirs
        (cleanupFilesStep oracle none created
          (⟨fs, lock, [], []⟩ : CleanSt))).fs.hasFile q
      = (cleanupFilesStep oracle none created
          (⟨fs, lock, [], []⟩ : CleanSt)).fs.hasFile q :=
    fun q => hasFile_congr_files cleanupDirsStep_files q
  refine ⟨?_, ?_, ?_⟩
  · intro f hf
    rw [hasFile_congr_files
      (congrArg FS.files (cleanupUnlockStep_fs oracle true _))]
    cases hmb : (cleanupManifestStep oracle true mp
        (cleanupDirsStep oracle dirs
          (cleanupFilesStep oracle none created
            ⟨fs, lock, [], []⟩))).fs.hasFile f with
    | false => rfl
    | true =>
      have h1 := cleanupManifestStep_hasFile_mono hmb
      rw [hdf f] at h1
      rw [cleanupFilesStep_removes hden hf (by simp)] at h1
      exact absurd h1 (by simp)
  · rw [cleanupUnlockStep_lock]
  · intro q hq
    rw [hasFile_congr_files
      (congrArg FS.files (cleanupUnlockStep_fs oracle true _))] at hq
    have h1 := cleanupManifestStep_hasFile_mono hq
    have h2 := h1
    rw [hdf q] at h2
    constructor
    · exact cleanupFilesStep_hasFile_mono h2
    · intro hqc
      rw [cleanupFilesStep_removes hden hqc (by simp)] at h2
      exact absurd h2 (by simp)

/-- C1: if copying the bytes of any file fails during staging, the
entire run aborts with the walk error and the full rollback runs: every
file staged before the failure is removed from its destination, the lock
is released, and no manifest file remains (assuming removals are not
themselves denied and no manifest existed when the run started, the
pre-run leftover pass having consumed any earlier one). -/
theorem claim1_fatal_copy_rollback (oracle : Oracle) (cfg : RunCfg)
    (entries : List Entry) (fs0 : FS) (src : Path) (st : WalkSt)
    (hwalk : walkStaging oracle cfg ⟨fs0, [], [], [], [], [], []⟩ entries
      = Except.error (WalkErr.copyFail src, st))
    (hden : ∀ p, oracle.removeDenied p = false)
    (hman : fs0.hasFile (manifestPathOf cfg) = false) :
    RunOut.isFatal (runStaging oracle cfg entries fs0) = true
    ∧ (∀ f ∈ st.createdFiles,
        (RunOut.fsOf (runStaging oracle cfg entries fs0)).hasFile f = false)
    ∧ RunOut.lockOf (runStaging oracle cfg entries fs0) = false
    ∧ (RunOut.fsOf (runStaging oracle cfg entries fs0)).hasFile
        (manifestPathOf cfg) = false := by
  have hrun : runStaging oracle cfg entries fs0
      = .fatal (.copyFail src)
        (cleanupStagedArtifactsM oracle (manifestPathOf cfg)
          st.createdFiles st.createdDirs none none true true st.fs true).1 := by
    unfold runStaging
    rw [hwalk]
  rw [hrun]
  have core := cleanup_rollback_core oracle (manifestPathOf cfg)
    st.createdFiles st.createdDirs st.fs true hden
  refine ⟨rfl, ?_, core.2.1, ?_⟩
  · intro f hf
    exact core.1 f hf
  · cases hmb : (cleanupStagedArtifactsM oracle (manifestPathOf cfg)
        st.createdFiles st.createdDirs none none true true
        st.fs true).1.fs.hasFile (manifestPathOf cfg) with
    | false => exact hmb
    | true =>
      obtain ⟨hw, hnc⟩ := core.2.2 (manifestPathOf cfg) hmb
      have htr := walkStaging_tracks oracle cfg
        ⟨fs0, [], [], [], [], [], []⟩ entries
      rw [hwalk] at htr
      rcases htr.1 (manifestPathOf cfg) hw with h0 | h0
      · rw [show (⟨fs0, [], [], [], [], [], []⟩ : WalkSt).fs = fs0
            from rfl] at h0
        rw [hman] at h0
        exact absurd h0 (by simp)
      · exact absurd h0 hnc

theorem walkStep_dry (oracle : Oracle) (cfg : RunCfg) (st : WalkSt)
    (e : Entry) (hdry : cfg.dryRun = true)
    (hstat : ∀ q, oracle.statFails q = false) :
    ∃ st2, walkStep oracle cfg st e = Except.ok st2 ∧ st2.fs = st.fs := by
  unfold walkStep
  rw [hdry]
  by_cases h1 : (joinSlash e.rel == configFilename
      || joinSlash e.rel == manifestFilename
      || joinSlash e.rel == lockFilename) = true
  · rw [if_pos h1]
    exact ⟨st, rfl, rfl⟩
  · rw [if_neg h1]
    by_cases h2 : cfg.excludeMatch e.rel = true
    · rw [if_pos h2]
      exact ⟨_, rfl, rfl⟩
    · rw [if_neg h2]
      by_cases h3 : (cfg.useRegistry && cfg.registryMatch e.rel
          && !cfg.overrideMatch e.rel) = true
      · rw [if_pos h3]
        exact ⟨_, rfl, rfl⟩
      · rw [if_neg h3]
        by_cases h4 : pathExists st.fs (cfg.cwd ++ e.rel) = true
        · rw [if_pos h4]
          exact ⟨_, rfl, rfl⟩
        · rw [if_neg h4]
          rcases heqall : ensureDirWithCacheM oracle true st.fs st.cache
              st.createdDirs (cfg.cwd ++ e.rel).dropLast with
            ⟨res, fs2, cache2, cd2⟩
          have hfs : fs2 = st.fs := by
            have hx := ensure_dry_fs oracle st.fs st.cache
              st.createdDirs (cfg.cwd ++ e.rel).dropLast
            rw [heqall] at hx
            exact hx
          have hne : res ≠ EnsureRes.err := by
            have hx := ensure_dry_no_err oracle st.fs st.cache
              st.createdDirs (cfg.cwd ++ e.rel).dropLast hstat
            rw [heqall] at hx
            exact hx
          cases res with
          | err => exact absurd rfl hne
          | skip => exact ⟨_, rfl, hfs⟩
          | ok => exact ⟨_, rfl, hfs⟩

theorem walkStaging_dry (oracle : Oracle) (cfg : RunCfg)
    (hdry : cfg.dryRun = true) (hstat : ∀ q, oracle.statFails q = false) :
    ∀ (es : List Entry) (st : WalkSt), ∃ st2,
      walkStaging oracle cfg st es = Except.ok st2 ∧ st2.fs = st.fs := by
  intro es
  induction es with
  | nil => exact fun st => ⟨st, rfl, rfl⟩
  | cons e es ih =>
    intro st
    obtain ⟨st1, hstep, hfs1⟩ := walkStep_dry oracle cfg st e hdry hstat
    obtain ⟨st2, hrest, hfs2⟩ := ih st1
    refine ⟨st2, ?_, hfs2.trans hfs1⟩
    show (match walkStep oracle cfg st e with
      | .ok st2 => walkStaging oracle cfg st2 es
      | .error r => .error r) = Except.ok st2
    rw [hstep]
    exact hrest

theorem runStaging_dry (oracle : Oracle) (cfg : RunCfg)
    (entries : List Entry) (fs0 : FS) (st : WalkSt)
    (hdry : cfg.dryRun = true)
    (hok : walkStaging oracle cfg ⟨fs0, [], [], [], [], [], []⟩ entries
      = Except.ok st) :
    runStaging oracle cfg entries fs0 = RunOut.dryDone st false := by
  unfold runStaging
  rw [hok, hdry]
  rfl

/-- A file already present at some destination path survives one walk
step untouched and unrecorded; and when the step's own entry computes
exactly that destination and passes the reserved/exclude/registry
filters, the step reports it under skip-existing. -/
theorem walkStep_pre_existing (oracle : Oracle) (cfg : RunCfg) (st : WalkSt)
    (e : Entry) {p : Path} {d : FileData}
    (hp : st.fs.lookupFile p = some d) (hnc : p ∉ st.createdFiles) :
    (walkFinalSt (walkStep oracle cfg st e)).fs.lookupFile p = some d
    ∧ p ∉ (walkFinalSt (walkStep oracle cfg st e)).createdFiles
    ∧ (∀ x ∈ st.skippedExisting,
        x ∈ (walkFinalSt (walkStep oracle cfg st e)).skippedExisting)
    ∧ (cfg.cwd ++ e.rel = p →
        (joinSlash e.rel == configFilename
          || joinSlash e.rel == manifestFilename
          || joinSlash e.rel == lockFilename) = false →
        cfg.excludeMatch e.rel = false →
        (cfg.useRegistry && cfg.registryMatch e.rel
          && !cfg.overrideMatch e.rel) = false →
        walkStep oracle cfg st e = Except.ok { st with
          skippedExisting := st.skippedExisting ++ [joinSlash e.rel] }) := by
  have hex : cfg.cwd ++ e.rel = p →
      pathExists st.fs (cfg.cwd ++ e.rel) = true := by
    intro heq
    rw [heq]
    unfold pathExists FS.hasFile
    rw [hp]
    rfl
  unfold walkStep
  by_cases h1 : (joinSlash e.rel == configFilename
      || joinSlash e.rel == manifestFilename
      || joinSlash e.rel == lockFilename) = true
  · rw [if_pos h1]
    exact ⟨hp, hnc, fun x hx => hx, fun _ hres => absurd h1 (by simp [hres])⟩
  · rw [if_neg h1]
    by_cases h2 : cfg.excludeMatch e.rel = true
    · rw [if_pos h2]
      exact ⟨hp, hnc, fun x hx => hx,
        fun _ _ hexcl => absurd h2 (by simp [hexcl])⟩
    · rw [if_neg h2]
      by_cases h3 : (cfg.useRegistry && cfg.registryMatch e.rel
          && !cfg.overrideMatch e.rel) = true
      · rw [if_pos h3]
        exact ⟨hp, hnc, fun x hx => hx,
          fun _ _ _ hreg => absurd h3 (by simp [hreg])⟩
      · rw [if_neg h3]
        by_cases h4 : pathExists st.fs (cfg.cwd ++ e.rel) = true
        · rw [if_pos h4]
          exact ⟨hp, hnc, fun x hx => List.mem_append_left _ hx,
            fun _ _ _ _ => rfl⟩
        · rw [if_neg h4]
          have hne : ¬ cfg.cwd ++ e.rel = p := fun hh => h4 (hex hh)
          rcases heqall : ensureDirWithCacheM oracle cfg.dryRun st.fs st.cache
              st.createdDirs (cfg.cwd ++ e.rel).dropLast with
            ⟨res, fs2, cache2, cd2⟩
          have hfe : fs2.files = st.fs.files := by
            have hx := ensure_files_eq oracle cfg.dryRun st.fs st.cache
              st.createdDirs (cfg.cwd ++ e.rel).dropLast
            rw [heqall] at hx
            exact hx
          have hp2 : fs2.lookupFile p = some d := by
            rw [lookup_congr_files hfe]
            exact hp
          have hncq : p ∉ st.createdFiles ++ [cfg.cwd ++ e.rel] := by
            intro hmem
            rcases List.mem_append.mp hmem with hm | hm
            · exact hnc hm
            · exact hne (List.mem_singleton.mp hm).symm
          cases res with
          | err => exact ⟨hp, hnc, fun x hx => hx, fun hh => absurd hh hne⟩
          | skip =>
            exact ⟨hp2, hnc, fun x hx => List.mem_append_left _ hx,
              fun hh => absurd hh hne⟩
          | ok =>
            by_cases hdry : cfg.dryRun = true
            · rw [hdry]
              exact ⟨hp2, hncq, fun x hx => hx, fun hh => absurd hh hne⟩
            · have hdry2 : cfg.dryRun = false := by simpa using hdry
              rw [hdry2]
              by_cases hcopy :
                  oracle.copyFails (configDirOf cfg ++ e.rel) = true
              · rw [hcopy]
                exact ⟨hp2, hnc, fun x hx => hx, fun hh => absurd hh hne⟩
              · have hcopy2 : oracle.copyFails (configDirOf cfg ++ e.rel)
                    = false := by simpa using hcopy
                rw [hcopy2]
                have hlw : (fs2.writeFile (cfg.cwd ++ e.rel)
                    (FileData.text e.content)).lookupFile p = some d := by
                  rw [lookup_writeFile_ne fs2 _ (fun hh => hne hh.symm)]
                  exact hp2
                exact ⟨hlw, hncq, fun x hx => hx, fun hh => absurd hh hne⟩

/-- The walk-level closure of `walkStep_pre_existing`. -/
theorem walkStaging_pre_existing (oracle : Oracle) (cfg : RunCfg)
    {p : Path} {d : FileData} :
    ∀ (es : List Entry) (st : WalkSt),
      st.fs.lookupFile p = some d → p ∉ st.createdFiles →
      (walkFinalSt (walkStaging oracle cfg st es)).fs.lookupFile p = some d
      ∧ p ∉ (walkFinalSt (walkStaging oracle cfg st es)).createdFiles
      ∧ (∀ x ∈ st.skippedExisting,
          x ∈ (walkFinalSt (walkStaging oracle cfg st es)).skippedExisting)
      ∧ (∀ e ∈ es, cfg.cwd ++ e.rel = p →
          (joinSlash e.rel == configFilename
            || joinSlash e.rel == manifestFilename
            || joinSlash e.rel == lockFilename) = false →
          cfg.excludeMatch e.rel = false →
          (cfg.useRegistry && cfg.registryMatch e.rel
            && !cfg.overrideMatch e.rel) = false →
          isFatalWalk (walkStaging oracle cfg st es) = false →
          joinSlash e.rel ∈
            (walkFinalSt (walkStaging oracle cfg st es)).skippedExisting) := by
  intro es
  induction es with
  | nil =>
    intro st hp hnc
    exact ⟨hp, hnc, fun x hx => hx,
      fun e he => absurd he (List.not_mem_nil e)⟩
  | cons e es ih =>
    intro st hp hnc
    have hunf : walkStaging oracle cfg st (e :: es)
        = match walkStep oracle cfg st e with
          | .ok st2 => walkStaging oracle cfg st2 es
          | .error r => .error r := rfl
    rw [hunf]
    have step := walkStep_pre_existing oracle cfg st e hp hnc
    cases hstep : walkStep oracle cfg st e with
    | error r =>
      rw [hstep] at step
      exact ⟨step.1, step.2.1, step.2.2.1,
        fun e' he' _ _ _ _ hfat => absurd hfat (by simp [isFatalWalk])⟩
    | ok st2 =>
      rw [hstep] at step
      have hp2 : st2.fs.lookupFile p = some d := step.1
      have hnc2 : p ∉ st2.createdFiles := step.2.1
      have hmono : ∀ x ∈ st.skippedExisting, x ∈ st2.skippedExisting :=
        step.2.2.1
      obtain ⟨ih1, ih2, ih3, ih4⟩ := ih st2 hp2 hnc2
      refine ⟨ih1, ih2, fun x hx => ih3 x (hmono x hx), ?_⟩
      intro e' he' heq hres hexcl hreg hfat
      rcases List.mem_cons.mp he' with rfl | hm
      · have hrep := step.2.2.2 heq hres hexcl hreg
        injection hrep with hh
        refine ih3 (joinSlash e'.rel) ?_
        rw [hh]
        exact List.mem_append_right _ (List.mem_singleton_self _)
      · exact ih4 e' hm heq hres hexcl hreg hfat

def fsW1 : FS := ⟨[], [["w"]]⟩

def cfgW1 : RunCfg :=
  ⟨["w"], false, false, false, false, "r1",
   fun _ => false, fun _ => false, fun _ => false⟩

def oracleW1 : Oracle :=
  ⟨fun _ => false, fun p => p == ["w", ".config", "b.txt"],
   fun _ => false, false⟩

def entriesW1 : List Entry := [⟨["a.txt"], "A"⟩, ⟨["b.txt"], "B"⟩]

def stW1 : WalkSt :=
  ⟨⟨[(["w", "a.txt"], .text "A")], [["w"]]⟩, [["w"]],
   [["w", "a.txt"]], [], [], [], []⟩

/-- C1 witness: a concrete two-file staging where the second byte copy
fails; the run is fatal, the first staged file is gone again, the lock
is released and no manifest remains. -/
theorem claim1_fatal_copy_rollback_witness :
    (walkStaging oracleW1 cfgW1 ⟨fsW1, [], [], [], [], [], []⟩ entriesW1
      = Except.error (WalkErr.copyFail ["w", ".config", "b.txt"], stW1))
    ∧ (∀ p, oracleW1.removeDenied p = false)
    ∧ fsW1.hasFile (manifestPathOf cfgW1) = false
    ∧ (RunOut.isFatal (runStaging oracleW1 cfgW1 entriesW1 fsW1) = true
      ∧ (∀ f ∈ stW1.createdFiles,
          (RunOut.fsOf (runStaging oracleW1 cfgW1 entriesW1 fsW1)).hasFile f
            = false)
      ∧ RunOut.lockOf (runStaging oracleW1 cfgW1 entriesW1 fsW1) = false
      ∧ (RunOut.fsOf (runStaging oracleW1 cfgW1 entriesW1 fsW1)).hasFile
          (manifestPathOf cfgW1) = false) :=
  ⟨rfl, fun _ => rfl, rfl,
   claim1_fatal_copy_rollback oracleW1 cfgW1 entriesW1 fsW1
     ["w", ".config", "b.txt"] stW1 rfl (fun _ => rfl) rfl⟩

/-- C9: in dry-run mode (and with `stat` observations succeeding, as on
the spec's happy path) the run performs no filesystem mutation at all —
the final filesystem equals the initial one, so no directory is created,
no file is copied and no manifest is written — the lock is released and
the run ends in the dry-run exit. -/
theorem claim9_dry_run_frame (oracle : Oracle) (cfg : RunCfg)
    (entries : List Entry) (fs0 : FS) (hdry : cfg.dryRun = true)
    (hstat : ∀ q, oracle.statFails q = false) :
    RunOut.isDryDone (runStaging oracle cfg entries fs0) = true
    ∧ RunOut.fsOf (runStaging oracle cfg entries fs0) = fs0
    ∧ RunOut.lockOf (runStaging oracle cfg entries fs0) = false := by
  obtain ⟨st, hok, hfs⟩ := walkStaging_dry oracle cfg hdry hstat entries
    ⟨fs0, [], [], [], [], [], []⟩
  rw [runStaging_dry oracle cfg entries fs0 st hdry hok]
  exact ⟨rfl, hfs, rfl⟩

def fsW9 : FS := ⟨[], [["w"]]⟩

def cfgW9 : RunCfg :=
  ⟨["w"], true, true, false, true, "r9",
   fun _ => false, fun _ => false, fun _ => false⟩

def oracleW9 : Oracle :=
  ⟨fun _ => false, fun _ => false, fun _ => false, false⟩

def entriesW9 : List Entry := [⟨["a.txt"], "A"⟩, ⟨["sub", "b.txt"], "B"⟩]

/-- C9 witness: a concrete dry run over two entries (one needing a new
destination directory) leaves the filesystem untouched, releases the
lock and ends in the dry-run exit. -/
theorem claim9_dry_run_frame_witness :
    cfgW9.dryRun = true
    ∧ (∀ q, oracleW9.statFails q = false)
    ∧ (RunOut.isDryDone (runStaging oracleW9 cfgW9 entriesW9 fsW9) = true
      ∧ RunOut.fsOf (runStaging oracleW9 cfgW9 entriesW9 fsW9) = fsW9
      ∧ RunOut.lockOf (runStaging oracleW9 cfgW9 entriesW9 fsW9) = false) :=
  ⟨rfl, fun _ => rfl,
   claim9_dry_run_frame oracleW9 cfgW9 entriesW9 fsW9 rfl (fun _ => rfl)⟩

/-- C3 (amended): a file already present at its computed destination is
left byte-identical by the whole staging walk and is never recorded in
`createdFiles` (so cleanup never deletes it); and when its entry passes
the reserved-name, exclude and registry filters — but only then, the
filters run first — a completed walk reports it under skip-existing. -/
theorem claim3_never_overwrite (oracle : Oracle) (cfg : RunCfg)
    (entries : List Entry) (fs0 : FS) (p : Path) (d : FileData)
    (hd : fs0.lookupFile p = some d) :
    (walkFinalSt (walkStaging oracle cfg ⟨fs0, [], [], [], [], [], []⟩
        entries)).fs.lookupFile p = some d
    ∧ p ∉ (walkFinalSt (walkStaging oracle cfg ⟨fs0, [], [], [], [], [], []⟩
        entries)).createdFiles
    ∧ (∀ e ∈ entries, cfg.cwd ++ e.rel = p →
        (joinSlash e.rel == configFilename
          || joinSlash e.rel == manifestFilename
          || joinSlash e.rel == lockFilename) = false →
        cfg.excludeMatch e.rel = false →
        (cfg.useRegistry && cfg.registryMatch e.rel
          && !cfg.overrideMatch e.rel) = false →
        isFatalWalk (walkStaging oracle cfg ⟨fs0, [], [], [], [], [], []⟩
          entries) = false →
        joinSlash e.rel ∈
          (walkFinalSt (walkStaging oracle cfg ⟨fs0, [], [], [], [], [], []⟩
            entries)).skippedExisting) := by
  have h := walkStaging_pre_existing oracle cfg entries
    ⟨fs0, [], [], [], [], [], []⟩ hd (List.not_mem_nil p)
  exact ⟨h.1, h.2.1, h.2.2.2⟩

def fsX3 : FS := ⟨[(["w", "a.txt"], .text "old")], [["w"]]⟩

def cfgX3 : RunCfg :=
  ⟨["w"], false, false, false, false, "r3",
   fun r => r == ["a.txt"], fun _ => false, fun _ => false⟩

def oracleX3 : Oracle :=
  ⟨fun _ => false, fun _ => false, fun _ => false, false⟩

def entriesX3 : List Entry := [⟨["a.txt"], "new"⟩]

/-- C3 counterexample: the destination of the single entry already
exists, yet because the entry also matches the user exclude list — and
the exclude filter runs before the existence check — the completed walk
reports it under skipped-excluded and leaves skip-existing empty,
contradicting "reports it under skip-existing, regardless of
exclude/registry settings". -/
theorem claim3_counterexample :
    fsX3.hasFile (cfgX3.cwd ++ ["a.txt"]) = true
    ∧ cfgX3.excludeMatch ["a.txt"] = true
    ∧ isFatalWalk (walkStaging oracleX3 cfgX3 ⟨fsX3, [], [], [], [], [], []⟩
        entriesX3) = false
    ∧ (walkFinalSt (walkStaging oracleX3 cfgX3 ⟨fsX3, [], [], [], [], [], []⟩
        entriesX3)).skippedExisting = []
    ∧ (walkFinalSt (walkStaging oracleX3 cfgX3 ⟨fsX3, [], [], [], [], [], []⟩
        entriesX3)).skippedExcluded = ["a.txt"] :=
  ⟨rfl, rfl, rfl, rfl, rfl⟩

def fsY3 : FS := ⟨[(["w", "a.txt"], .text "old")], [["w"]]⟩

def cfgY3 : RunCfg :=
  ⟨["w"], false, false, false, false, "r3",
   fun _ => false, fun _ => false, fun _ => false⟩

def oracleY3 : Oracle :=
  ⟨fun _ => false, fun _ => false, fun _ => false, false⟩

def entriesY3 : List Entry := [⟨["a.txt"], "new"⟩]

/-- C3 witness: a concrete pre-existing destination file survives the
walk byte-identical, is not recorded as created, and — its entry passing
all filters — is reported under skip-existing. -/
theorem claim3_never_overwrite_witness :
    fsY3.lookupFile ["w", "a.txt"] = some (.text "old")
    ∧ ((walkFinalSt (walkStaging oracleY3 cfgY3 ⟨fsY3, [], [], [], [], [], []⟩
        entriesY3)).fs.lookupFile ["w", "a.txt"] = some (.text "old")
      ∧ ["w", "a.txt"] ∉ (walkFinalSt (walkStaging oracleY3 cfgY3
          ⟨fsY3, [], [], [], [], [], []⟩ entriesY3)).createdFiles
      ∧ (∀ e ∈ entriesY3, cfgY3.cwd ++ e.rel = ["w", "a.txt"] →
          (joinSlash e.rel == configFilename
            || joinSlash e.rel == manifestFilename
            || joinSlash e.rel == lockFilename) = false →
          cfgY3.excludeMatch e.rel = false →
          (cfgY3.useRegistry && cfgY3.registryMatch e.rel
            && !cfgY3.overrideMatch e.rel) = false →
          isFatalWalk (walkStaging oracleY3 cfgY3
            ⟨fsY3, [], [], [], [], [], []⟩ entriesY3) = false →
          joinSlash e.rel ∈
            (walkFinalSt (walkStaging oracleY3 cfgY3
              ⟨fsY3, [], [], [], [], [], []⟩ entriesY3)).skippedExisting)) :=
  ⟨rfl, claim3_never_overwrite oracleY3 cfgY3 entriesY3 fsY3
    ["w", "a.txt"] (.text "old") rfl⟩

/-- C7 (amended): for an entry that passes the reserved-name, exclude,
registry and existence checks, `ensureDirWithCache`'s *policy refusal*
(`ok = false` with no error: an ancestor exists but is not a directory)
is counted under skip-existing and the walk continues with the next
entry, while an actual *error* from it aborts the whole walk with an
ensure failure, reporting nothing. -/
theorem claim7_ensure_failure_policy (oracle : Oracle) (cfg : RunCfg)
    (st : WalkSt) (e : Entry)
    (hres : (joinSlash e.rel == configFilename
      || joinSlash e.rel == manifestFilename
      || joinSlash e.rel == lockFilename) = false)
    (hexcl : cfg.excludeMatch e.rel = false)
    (hreg : (cfg.useRegistry && cfg.registryMatch e.rel
      && !cfg.overrideMatch e.rel) = false)
    (hex : pathExists st.fs (cfg.cwd ++ e.rel) = false) :
    (∀ fs2 cache2 cd2,
      ensureDirWithCacheM oracle cfg.dryRun st.fs st.cache st.createdDirs
          (cfg.cwd ++ e.rel).dropLast = (EnsureRes.skip, fs2, cache2, cd2) →
      walkStep oracle cfg st e = Except.ok { st with
        fs := fs2
        cache := cache2
        createdDirs := cd2
        skippedExisting := st.skippedExisting ++ [joinSlash e.rel] }
      ∧ ∀ es, walkStaging oracle cfg st (e :: es)
          = walkStaging oracle cfg { st with
              fs := fs2
              cache := cache2
              createdDirs := cd2
              skippedExisting := st.skippedExisting ++ [joinSlash e.rel] } es)
    ∧ (∀ fs2 cache2 cd2,
      ensureDirWithCacheM oracle cfg.dryRun st.fs st.cache st.createdDirs
          (cfg.cwd ++ e.rel).dropLast = (EnsureRes.err, fs2, cache2, cd2) →
      walkStep oracle cfg st e
        = Except.error (WalkErr.ensureFail (cfg.cwd ++ e.rel).dropLast, st)
      ∧ ∀ es, walkStaging oracle cfg st (e :: es)
          = Except.error
              (WalkErr.ensureFail (cfg.cwd ++ e.rel).dropLast, st)) := by
  constructor
  · intro fs2 cache2 cd2 hens
    have hstep : walkStep oracle cfg st e = Except.ok { st with
        fs := fs2
        cache := cache2
        createdDirs := cd2
        skippedExisting := st.skippedExisting ++ [joinSlash e.rel] } := by
      unfold walkStep
      rw [hres, hexcl, hreg, hex, hens]
      rfl
    refine ⟨hstep, fun es => ?_⟩
    show (match walkStep oracle cfg st e with
      | .ok st2 => walkStaging oracle cfg st2 es
      | .error r => .error r) = _
    rw [hstep]
  · intro fs2 cache2 cd2 hens
    have hstep : walkStep oracle cfg st e
        = Except.error (WalkErr.ensureFail (cfg.cwd ++ e.rel).dropLast, st) := by
      unfold walkStep
      rw [hres, hexcl, hreg, hex, hens]
      rfl
    refine ⟨hstep, fun es => ?_⟩
    show (match walkStep oracle cfg st e with
      | .ok st2 => walkStaging oracle cfg st2 es
      | .error r => .error r) = _
    rw [hstep]

def fsX7 : FS := ⟨[], [["w"]]⟩

def cfgX7 : RunCfg :=
  ⟨["w"], false, false, false, false, "r7",
   fun _ => false, fun _ => false, fun _ => false⟩

def oracleX7 : Oracle :=
  ⟨fun p => p == ["w", "sub"], fun _ => false, fun _ => false, false⟩

def entriesX7 : List Entry := [⟨["sub", "b.txt"], "B"⟩]

/-- C7 counterexample: a `stat` error inside `ensureDirWithCache` at the
destination's parent directory aborts the whole staging walk with an
ensure failure and the file is *not* counted under skip-existing,
contradicting "every failure of the ensure-destination-directory step is
treated as a skip-existing policy skip ... rather than aborting". -/
theorem claim7_counterexample :
    (ensureDirWithCacheM oracleX7 cfgX7.dryRun fsX7 [] []
        ["w", "sub"]).1 = EnsureRes.err
    ∧ walkStaging oracleX7 cfgX7 ⟨fsX7, [], [], [], [], [], []⟩ entriesX7
      = Except.error (WalkErr.ensureFail ["w", "sub"],
          ⟨fsX7, [], [], [], [], [], []⟩)
    ∧ isFatalWalk (walkStaging oracleX7 cfgX7 ⟨fsX7, [], [], [], [], [], []⟩
        entriesX7) = true
    ∧ (walkFinalSt (walkStaging oracleX7 cfgX7 ⟨fsX7, [], [], [], [], [], []⟩
        entriesX7)).skippedExisting = [] :=
  ⟨rfl, rfl, rfl, rfl⟩

def fsY7 : FS := ⟨[(["w", "sub"], .text "f")], [["w"]]⟩

def cfgY7 : RunCfg :=
  ⟨["w"], false, false, false, false, "r7",
   fun _ => false, fun _ => false, fun _ => false⟩

def oracleY7 : Oracle :=
  ⟨fun _ => false, fun _ => false, fun _ => false, false⟩

def entryY7 : Entry := ⟨["sub", "b.txt"], "B"⟩

/-- C7 witness: with the destination's parent existing as a regular
file, `ensureDirWithCache` answers with the policy refusal and the step
records the entry under skip-existing and hands the walk on. -/
theorem claim7_ensure_failure_policy_witness :
    ((joinSlash entryY7.rel == configFilename
      || joinSlash entryY7.rel == manifestFilename
      || joinSlash entryY7.rel == lockFilename) = false)
    ∧ cfgY7.excludeMatch entryY7.rel = false
    ∧ (cfgY7.useRegistry && cfgY7.registryMatch entryY7.rel
        && !cfgY7.overrideMatch entryY7.rel) = false
    ∧ pathExists fsY7 (cfgY7.cwd ++ entryY7.rel) = false
    ∧ (ensureDirWithCacheM oracleY7 cfgY7.dryRun fsY7 [] []
        (cfgY7.cwd ++ entryY7.rel).dropLast
        = (EnsureRes.skip, fsY7, [], []))
    ∧ walkStep oracleY7 cfgY7 ⟨fsY7, [], [], [], [], [], []⟩ entryY7
        = Except.ok { (⟨fsY7, [], [], [], [], [], []⟩ : WalkSt) with
            fs := fsY7
            cache := []
            createdDirs := []
            skippedExisting := [] ++ [joinSlash entryY7.rel] } :=
  ⟨rfl, rfl, rfl, rfl, rfl,
   ((claim7_ensure_failure_policy oracleY7 cfgY7
      ⟨fsY7, [], [], [], [], [], []⟩ entryY7 rfl rfl rfl rfl).1
     fsY7 [] [] rfl).1⟩

/-- The cleanup state after the VS Code, created-file, created-dir and
gitignore reversal steps — exactly what `shouldRemoveManifest` inspects. -/
def preManifestState (oracle : Oracle) (createdFiles createdDirs : List Path)
    (vctx : Option VSCodeContextM) (gctx : Option GitContextM) (fs : FS)
    (lockHeld : Bool) : CleanSt :=
  cleanupGitStep gctx
    (cleanupDirsStep oracle createdDirs
      (cleanupFilesStep oracle (skipPathOf vctx) createdFiles
        (cleanupVSCodeStep oracle vctx ⟨fs, lockHeld, [], []⟩)))

/-- C2: the manifest is deleted only when every prior reversal fully
succeeded — with any recorded failure or remaining path it is left
byte-identical in place for a later retry — while reversal failures are
aggregated into the final failure list (each denied file removal is
reported there) and the combined error reflects the aggregate, never a
first error. -/
theorem claim2_manifest_retention (oracle : Oracle) (mp : Path)
    (created dirs : List Path) (vctx : Option VSCodeContextM)
    (gctx : Option GitContextM) (hu rm : Bool) (fs : FS) (lock : Bool)
    (hmc : mp ∉ created)
    (hv : ∀ c, vctx = some c → ¬ mp = c.settingsPath)
    (hg : ∀ g, gctx = some g → ¬ mp = g.excludePath) :
    (¬(rm = true
        ∧ (preManifestState oracle created dirs vctx gctx fs lock).failures
            = []
        ∧ (preManifestState oracle created dirs vctx gctx fs lock).remaining
            = []) →
      ((cleanupStagedArtifactsM oracle mp created dirs vctx gctx hu rm
          fs lock).1).fs.lookupFile mp = fs.lookupFile mp)
    ∧ (rm = true →
      (preManifestState oracle created dirs vctx gctx fs lock).failures
          = [] →
      (preManifestState oracle created dirs vctx gctx fs lock).remaining
          = [] →
      oracle.removeDenied mp = false →
      ((cleanupStagedArtifactsM oracle mp created dirs vctx gctx hu rm
          fs lock).1).fs.hasFile mp = false)
    ∧ (∀ f ∈ created, oracle.removeDenied f = true →
        skipPathOf vctx ≠ some f →
        CFailure.removeFile f ∈
          ((cleanupStagedArtifactsM oracle mp created dirs vctx gctx hu rm
            fs lock).1).failures)
    ∧ ((cleanupStagedArtifactsM oracle mp created dirs vctx gctx hu rm
          fs lock).2
        = !(((cleanupStagedArtifactsM oracle mp created dirs vctx gctx hu rm
            fs lock).1).failures.isEmpty
          && ((cleanupStagedArtifactsM oracle mp created dirs vctx gctx hu rm
            fs lock).1).remaining.isEmpty)) := by
  have hshape : (cleanupStagedArtifactsM oracle mp created dirs vctx gctx
      hu rm fs lock).1
      = cleanupUnlockStep oracle hu
          (cleanupManifestStep oracle rm mp
            (preManifestState oracle created dirs vctx gctx fs lock)) := rfl
  refine ⟨?_, ?_, ?_, rfl⟩
  · intro hng
    have hgate : (rm
        && (preManifestState oracle created dirs vctx gctx fs lock).failures.isEmpty
        && (preManifestState oracle created dirs vctx gctx fs lock).remaining.isEmpty)
        = false := by
      by_contra hc
      exact hng (by simpa [Bool.and_eq_true, List.isEmpty_iff,
        and_assoc] using hc)
    rw [hshape, cleanupManifestStep_gate_off hgate, cleanupUnlockStep_fs]
    show (cleanupGitStep gctx
        (cleanupDirsStep oracle dirs
          (cleanupFilesStep oracle (skipPathOf vctx) created
            (cleanupVSCodeStep oracle vctx
              ⟨fs, lock, [], []⟩)))).fs.lookupFile mp = fs.lookupFile mp
    rw [cleanupGitStep_lookup_ne hg,
      lookup_congr_files cleanupDirsStep_files mp,
      cleanupFilesStep_lookup_notin hmc,
      cleanupVSCodeStep_lookup_ne hv]
  · intro hrm h2 h3 hden
    subst hrm
    have hgate : (true
        && (preManifestState oracle created dirs vctx gctx fs lock).failures.isEmpty
        && (preManifestState oracle created dirs vctx gctx fs lock).remaining.isEmpty)
        = true := by
      rw [h2, h3]
      rfl
    rw [hshape]
    rw [hasFile_congr_files
      (congrArg FS.files (cleanupUnlockStep_fs oracle hu _))]
    exact cleanupManifestStep_removes hgate hden
  · intro f hf hdenf hsk
    rw [hshape]
    have h1 : CFailure.removeFile f ∈
        (cleanupFilesStep oracle (skipPathOf vctx) created
          (cleanupVSCodeStep oracle vctx ⟨fs, lock, [], []⟩)).failures :=
      cleanupFilesStep_records hf hdenf hsk
    have h2 : CFailure.removeFile f ∈
        (cleanupDirsStep oracle dirs
          (cleanupFilesStep oracle (skipPathOf vctx) created
            (cleanupVSCodeStep oracle vctx
              ⟨fs, lock, [], []⟩))).failures :=
      cleanupDirsStep_failures_mono h1
    have h3 : CFailure.removeFile f ∈
        (preManifestState oracle created dirs vctx gctx fs lock).failures := by
      show CFailure.removeFile f ∈
        (cleanupGitStep gctx
          (cleanupDirsStep oracle dirs
            (cleanupFilesStep oracle (skipPathOf vctx) created
              (cleanupVSCodeStep oracle vctx ⟨fs, lock, [], []⟩)))).failures
      rw [cleanupGitStep_failures]
      exact h2
    exact cleanupUnlockStep_failures_mono
      (cleanupManifestStep_failures_mono h3)

def mpW2 : Path := ["w", ".config", "m.json"]

def createdW2 : List Path := [["w", "x.txt"]]

def oracleW2 : Oracle :=
  ⟨fun _ => false, fun _ => false, fun p => p == ["w", "x.txt"], false⟩

def fsW2 : FS :=
  ⟨[(["w", "x.txt"], FileData.text "X"),
    (["w", ".config", "m.json"], FileData.text "M")],
   [["w"], ["w", ".config"]]⟩

/-- C2 witness: with the removal of the one created file denied, the
manifest's bytes survive the cleanup untouched, would be removed only on
a fully clean reversal, the denied removal is reported in the aggregated
failures, and the combined error mirrors the aggregate. -/
theorem claim2_manifest_retention_witness :
    mpW2 ∉ createdW2
    ∧ ((¬(true = true
        ∧ (preManifestState oracleW2 createdW2 [] none none fsW2
            true).failures = []
        ∧ (preManifestState oracleW2 createdW2 [] none none fsW2
            true).remaining = []) →
      ((cleanupStagedArtifactsM oracleW2 mpW2 createdW2 [] none none true
          true fsW2 true).1).fs.lookupFile mpW2 = fsW2.lookupFile mpW2)
    ∧ (true = true →
      (preManifestState oracleW2 createdW2 [] none none fsW2
          true).failures = [] →
      (preManifestState oracleW2 createdW2 [] none none fsW2
          true).remaining = [] →
      oracleW2.removeDenied mpW2 = false →
      ((cleanupStagedArtifactsM oracleW2 mpW2 createdW2 [] none none true
          true fsW2 true).1).fs.hasFile mpW2 = false)
    ∧ (∀ f ∈ createdW2, oracleW2.removeDenied f = true →
        skipPathOf none ≠ some f →
        CFailure.removeFile f ∈
          ((cleanupStagedArtifactsM oracleW2 mpW2 createdW2 [] none none
            true true fsW2 true).1).failures)
    ∧ ((cleanupStagedArtifactsM oracleW2 mpW2 createdW2 [] none none true
          true fsW2 true).2
        = !(((cleanupStagedArtifactsM oracleW2 mpW2 createdW2 [] none none
            true true fsW2 true).1).failures.isEmpty
          && ((cleanupStagedArtifactsM oracleW2 mpW2 createdW2 [] none none
            true true fsW2 true).1).remaining.isEmpty))) :=
  ⟨by decide,
   claim2_manifest_retention oracleW2 mpW2 createdW2 [] none none true true
     fsW2 true (by decide) (fun c hc => nomatch hc) (fun g hgx => nomatch hgx)⟩

/-- C10: when `applyVSCodeExcludes` has to create the settings file, it
records that path in `createdFiles` and hands back a context with
`settingsCreated = true`; the cleanup skip path computed from that
context is exactly the settings path, the generic created-file removal
loop leaves that path's bytes (including any later human edit) alone
while still removing every other created file, so its removal is left to
the settings-reversal step. -/
theorem claim10_settings_created_skip (oracle : Oracle) (cwd : Path)
    (stagedFiles : List Path) (fs fs2 : FS)
    (createdFiles createdDirs cd2 : List Path)
    (hkeys : (uniqueRelKeys cwd stagedFiles).isEmpty = false)
    (hnex : pathExists fs (vscodeSettingsPath cwd) = false)
    (hens : ensureDirGo oracle false fs createdDirs [] (cwd ++ [".vscode"])
      = (EnsureRes.ok, fs2, cd2)) :
    applyVSCodeExcludesFS oracle cwd stagedFiles fs createdFiles createdDirs
      = ⟨FS.writeFile fs2 (vscodeSettingsPath cwd)
          (.jsonc (mkExcludeDoc (uniqueRelKeys cwd stagedFiles)) false),
        createdFiles ++ [vscodeSettingsPath cwd], cd2,
        some ⟨vscodeSettingsPath cwd, uniqueRelKeys cwd stagedFiles,
          true, true⟩⟩
    ∧ vscodeSettingsPath cwd ∈ createdFiles ++ [vscodeSettingsPath cwd]
    ∧ skipPathOf (some ⟨vscodeSettingsPath cwd,
        uniqueRelKeys cwd stagedFiles, true, true⟩)
      = some (vscodeSettingsPath cwd)
    ∧ (∀ (oracle2 : Oracle) (files : List Path) (st : CleanSt)
        (d : FileData),
        st.fs.lookupFile (vscodeSettingsPath cwd) = some d →
        (cleanupFilesStep oracle2 (some (vscodeSettingsPath cwd)) files
          st).fs.lookupFile (vscodeSettingsPath cwd) = some d)
    ∧ (∀ (oracle2 : Oracle) (files : List Path) (st : CleanSt) (f : Path),
        (∀ p, oracle2.removeDenied p = false) → f ∈ files →
        ¬ f = vscodeSettingsPath cwd →
        (cleanupFilesStep oracle2 (some (vscodeSettingsPath cwd)) files
          st).fs.hasFile f = false) := by
  refine ⟨?_, List.mem_append_right _ (List.mem_singleton_self _), ?_,
    fun oracle2 files st d hd => ?_, fun oracle2 files st f hden hf hne =>
      cleanupFilesStep_removes hden hf
        (fun hc => hne (Option.some.inj hc).symm)⟩
  · unfold applyVSCodeExcludesFS
    rw [hkeys, hnex, hens]
    rfl
  · simp [skipPathOf, vscodeSettingsPath]
  · rw [cleanupFilesStep_skip_lookup]
    exact hd

def oracleW10 : Oracle :=
  ⟨fun _ => false, fun _ => false, fun _ => false, false⟩

def fsW10 : FS := ⟨[], [["w"]]⟩

def fs2W10 : FS := ⟨[], [["w", ".vscode"], ["w"]]⟩

def stagedW10 : List Path := [["w", "x.txt"]]

/-- C10 witness: one staged file, no settings file yet — the patcher
creates `.vscode/settings.json`, records it as created with
`settingsCreated = true`, and the cleanup skip machinery spares exactly
that path. -/
theorem claim10_settings_created_skip_witness :
    (uniqueRelKeys ["w"] stagedW10).isEmpty = false
    ∧ pathExists fsW10 (vscodeSettingsPath ["w"]) = false
    ∧ ensureDirGo oracleW10 false fsW10 [] [] (["w"] ++ [".vscode"])
        = (EnsureRes.ok, fs2W10, [["w", ".vscode"]])
    ∧ (applyVSCodeExcludesFS oracleW10 ["w"] stagedW10 fsW10
          [["w", "x.txt"]] []
        = ⟨FS.writeFile fs2W10 (vscodeSettingsPath ["w"])
            (.jsonc (mkExcludeDoc (uniqueRelKeys ["w"] stagedW10)) false),
          [["w", "x.txt"]] ++ [vscodeSettingsPath ["w"]], [["w", ".vscode"]],
          some ⟨vscodeSettingsPath ["w"], uniqueRelKeys ["w"] stagedW10,
            true, true⟩⟩
      ∧ vscodeSettingsPath ["w"]
          ∈ [["w", "x.txt"]] ++ [vscodeSettingsPath ["w"]]
      ∧ skipPathOf (some ⟨vscodeSettingsPath ["w"],
          uniqueRelKeys ["w"] stagedW10, true, true⟩)
        = some (vscodeSettingsPath ["w"])
      ∧ (∀ (oracle2 : Oracle) (files : List Path) (st : CleanSt)
          (d : FileData),
          st.fs.lookupFile (vscodeSettingsPath ["w"]) = some d →
          (cleanupFilesStep oracle2 (some (vscodeSettingsPath ["w"])) files
            st).fs.lookupFile (vscodeSettingsPath ["w"]) = some d)
      ∧ (∀ (oracle2 : Oracle) (files : List Path) (st : CleanSt) (f : Path),
          (∀ p, oracle2.removeDenied p = false) → f ∈ files →
          ¬ f = vscodeSettingsPath ["w"] →
          (cleanupFilesStep oracle2 (some (vscodeSettingsPath ["w"])) files
            st).fs.hasFile f = false)) :=
  ⟨rfl, rfl, rfl,
   claim10_settings_created_skip oracleW10 ["w"] stagedW10 fsW10 fs2W10
     [["w", "x.txt"]] [] [["w", ".vscode"]] rfl rfl rfl⟩

end Confik
